import Mathlib

set_option autoImplicit false

namespace Grepo

/-!
Verification of the grepo entity-repository core: the data model is translated
from `packages/grepo-core/src/entity-mapping.ts`; the Mapping Engine, Change
Detector and Repository operations, whose implementations are not part of the
source tree (only their type declarations and the `Repository` interface
are), are modelled from the specification (spec.md §4).
-/

/-- Translated from entity-mapping.ts:
`PrimitiveType = 'string' | 'number' | 'boolean' | 'date'`. -/
inductive PrimitiveType where
  | string
  | number
  | boolean
  | date
  deriving DecidableEq

/-- Modelled from the spec: runtime values crossing the entity/resource
boundary (§1: "strings, numbers, booleans, dates"). Numbers are modelled as
integers and point-in-time date values as integer timestamps. -/
inductive Value where
  | str (s : String)
  | num (n : Int)
  | bool (b : Bool)
  | date (t : Int)
  deriving DecidableEq

/-- Translated from entity-mapping.ts lines 10-17 (`PropertyMapping`):
`to` is the resource key, `type` the coercion rule, and `optional` an
optional boolean (`none` models an omitted TypeScript optional field). -/
structure PropertyMapping where
  «to» : String
  type : PrimitiveType
  optional : Option Bool
  deriving DecidableEq

/-- An entity is an ordered record of field name to typed value
(a JavaScript object, quotiented by first-match lookup). -/
abbrev Entity := List (String × Value)

/-- A resource is an ordered record of resource key to value. -/
abbrev Resource := List (String × Value)

/-- An `EntityMapping` value: ordered record of entity field name to
`PropertyMapping` (entity-mapping.ts lines 42-44). -/
abbrev Mapping := List (String × PropertyMapping)

/-- First-match lookup in an ordered key/value record
(JavaScript object property read). -/
def lookupKey {K α : Type} [DecidableEq K] : List (K × α) → K → Option α
  | [], _ => none
  | (k, a) :: rest, key => if k = key then some a else lookupKey rest key

/-- JavaScript object and Map assignment: update the value in place when the
key exists (keeping its position), otherwise append the entry at the end. -/
def setKey {K α : Type} [DecidableEq K] : List (K × α) → K → α → List (K × α)
  | [], key, a => [(key, a)]
  | (k, b) :: rest, key, a =>
    if k = key then (k, a) :: rest else (k, b) :: setKey rest key a

/-- Modelled from the spec: forward (entity to resource) coercion from the
§4.1 table; on each declared `type` the matching runtime value passes through
(a date is serialized to the backend's canonical date representation,
modelled as the backend-native date value); a mismatched value has no
coercion. -/
def coerceForward : PrimitiveType → Value → Option Value
  | .string, .str s => some (.str s)
  | .number, .num n => some (.num n)
  | .boolean, .bool b => some (.bool b)
  | .date, .date t => some (.date t)
  | _, _ => none

/-- Modelled from the spec: backward (resource to entity) coercion from the
§4.1 table: identity on a matching value; for `number` it also parses numeric
text ("parse to numeric; fails if non-numeric text"); anything else fails. -/
def coerceBackward : PrimitiveType → Value → Option Value
  | .string, .str s => some (.str s)
  | .number, .num n => some (.num n)
  | .number, .str s => s.toInt?.map Value.num
  | .boolean, .bool b => some (.bool b)
  | .date, .date t => some (.date t)
  | _, _ => none

/-- A runtime value satisfies a declared primitive type. -/
def typeMatches : PrimitiveType → Value → Bool
  | .string, .str _ => true
  | .number, .num _ => true
  | .boolean, .bool _ => true
  | .date, .date _ => true
  | _, _ => false

/-- The direction of a mapping-engine pass. -/
inductive Direction where
  | forward
  | backward
  deriving DecidableEq

/-- Modelled from the spec (§7): `MappingError` with kinds
`missing-required-field` and `coercion-failure`; each error reports the
entity field and the direction that failed. -/
inductive MappingError where
  | missingRequiredField (field : String) (dir : Direction)
  | coercionFailure (field : String) (dir : Direction)
  deriving DecidableEq

/-- Whether a mapping-engine outcome failed with the
`missing-required-field` error kind. -/
def failedMissingRequired (res : Except MappingError Resource) : Bool :=
  match res with
  | .error (.missingRequiredField _ _) => true
  | _ => false

/-- Modelled from the spec: the Mapping Engine implementation is absent from
the source tree (only the `PropertyMapping` and `EntityMapping` type
declarations exist); §4.1 `toResource` processing loop: for each mapped
field in mapping order, read the entity value, apply the forward coercion and
write it under the `to` key; absent plus optional omits the key entirely,
absent plus required fails with `missing-required-field`, and a value not
matching the declared type fails with `coercion-failure`; the first failure
aborts the whole call (§4.1 failure policy). -/
def toResourceAux (e : Entity) : Mapping → Resource → Except MappingError Resource
  | [], r => .ok r
  | (k, pm) :: rest, r =>
    match lookupKey e k with
    | some v =>
      match coerceForward pm.type v with
      | some rv => toResourceAux e rest (setKey r pm.«to» rv)
      | none => .error (.coercionFailure k .forward)
    | none =>
      if pm.optional = some true then toResourceAux e rest r
      else .error (.missingRequiredField k .forward)

/-- Modelled from the spec: §4.1 `toResource(entity, mapping) -> resource`,
starting from an empty resource object. -/
def toResource (m : Mapping) (e : Entity) : Except MappingError Resource :=
  toResourceAux e m []

/-- Modelled from the spec: §4.1 `fromResource` processing loop, the inverse
pass — for each mapped field read the resource value at `to`, apply the
backward coercion and assign to the entity field; optional plus absent
behaves symmetrically to the forward case. -/
def fromResourceAux (r : Resource) : Mapping → Entity → Except MappingError Entity
  | [], e => .ok e
  | (k, pm) :: rest, e =>
    match lookupKey r pm.«to» with
    | some rv =>
      match coerceBackward pm.type rv with
      | some v => fromResourceAux r rest (setKey e k v)
      | none => .error (.coercionFailure k .backward)
    | none =>
      if pm.optional = some true then fromResourceAux r rest e
      else .error (.missingRequiredField k .backward)

/-- Modelled from the spec: §4.1 `fromResource(resource, mapping) -> entity`. -/
def fromResource (m : Mapping) (r : Resource) : Except MappingError Entity :=
  fromResourceAux r m []

/-- Deep field-by-field equality of two records, insensitive to entry order
(JavaScript deep object equality): every key of either record looks up to the
same value in both. -/
def entityEqv (e1 e2 : Entity) : Bool :=
  (e1.map Prod.fst ++ e2.map Prod.fst).all fun k =>
    decide (lookupKey e1 k = lookupKey e2 k)

/-- One mapped field is unproblematic for the forward pass: present with a
value matching its declared type, or absent and marked optional. -/
def cleanField (e : Entity) (p : String × PropertyMapping) : Bool :=
  match lookupKey e p.1 with
  | some v => typeMatches p.2.type v
  | none => decide (p.2.optional = some true)

/-- One mapped field is unproblematic for the backward pass: its resource key
present with a backward-coercible value, or absent and marked optional. -/
def cleanFieldBwd (r : Resource) (p : String × PropertyMapping) : Bool :=
  match lookupKey r p.2.«to» with
  | some rv => (coerceBackward p.2.type rv).isSome
  | none => decide (p.2.optional = some true)

/-- Every field of the entity satisfies the type its mapping declares. -/
def wellTyped (m : Mapping) (e : Entity) : Bool :=
  m.all (cleanField e)

/-- The resource entries a successful forward pass emits, in mapping order:
one entry under the `to` key for each mapped field present on the entity. -/
def fwdEntries (m : Mapping) (e : Entity) : Resource :=
  m.filterMap fun p =>
    (lookupKey e p.1).bind fun v =>
      (coerceForward p.2.type v).map fun rv => (p.2.«to», rv)

/-- The entity entries a successful backward pass emits, in mapping order:
one entry per mapped field whose `to` key is present on the resource. -/
def bwdEntries (m : Mapping) (r : Resource) : Entity :=
  m.filterMap fun p =>
    (lookupKey r p.2.«to»).bind fun rv =>
      (coerceBackward p.2.type rv).map fun v => (p.1, v)

/-- Translated from the gsheets package source (src/unnamed/part_000):
`helloGSheets`. -/
def helloGSheets : String := "Hello from GSheets!"

/-- Translated from entity-mapping.ts lines 42-44: a record value conforms to
the grepo-core declaration `EntityMapping<TEntity> =
\x7b[K in keyof TEntity]: PropertyMapping\x7d`. The mapped type is
homomorphic, so TypeScript preserves each source property's `?` modifier:
the entry for a required field of `TEntity` is required, while the entry for
an optional field (such as `id?` in the file's own `TaskEntity` example) is
itself optional and may be omitted. A value conforms iff its keys are unique
(TypeScript object keys are), every required entity field key is present,
every present key is an entity field key (required or optional), and every
value is a `PropertyMapping` (enforced here by the value type). -/
def conformsCoreEntityMapping (requiredKeys optionalKeys : List String)
    (v : List (String × PropertyMapping)) : Bool :=
  decide (v.map Prod.fst).Nodup
    && requiredKeys.all (fun k => decide (k ∈ v.map Prod.fst))
    && (v.map Prod.fst).all (fun k => decide (k ∈ requiredKeys ++ optionalKeys))

/-- Translated from src/unnamed/part_000 lines 1-5: a record value conforms
to the second declaration `EntityMapping<TEntity> =
\x7b[K in keyof TEntity]?: unknown\x7d` iff its keys are unique and every
present key is an entity field key; every key is optional there and values
are unconstrained (`unknown`, modelled as `Value`). -/
def conformsPartEntityMapping (entityKeys : List String)
    (v : List (String × Value)) : Bool :=
  decide (v.map Prod.fst).Nodup
    && (v.map Prod.fst).all (fun k => decide (k ∈ entityKeys))

/-- Translated from entity-mapping.ts lines 51-58 (`RepositoryChanges<T>`):
the three ordered change sequences. -/
structure RepositoryChanges (T : Type) where
  added : List T
  modified : List T
  deleted : List T
  deriving DecidableEq

/-- Modelled from the spec: §4.2 step 1 — build an identity-keyed mapping
from `current`, preserving input order (JavaScript Map insertion-order
semantics: assignment to an existing key keeps its position). -/
def buildByKey {T K : Type} [DecidableEq K] (idOf : T → K) (cur : List T) :
    List (K × T) :=
  cur.foldl (fun acc t => setKey acc (idOf t) t) []

/-- Modelled from the spec: §4.2 step 2 — scan `current` in order, appending
entities whose identity key is absent from `previous` to `added`, and
entities whose stored previous value is not deeply equal to `modified`. -/
def scanCurrent {T K : Type} [DecidableEq K] (idOf : T → K) (eqv : T → T → Bool)
    (prev : List (K × T)) : List T → List T × List T
  | [] => ([], [])
  | t :: rest =>
    let am := scanCurrent idOf eqv prev rest
    match lookupKey prev (idOf t) with
    | none => (t :: am.1, am.2)
    | some p => if eqv p t then am else (am.1, t :: am.2)

/-- The predicate §4.2 step 2 uses for `added`: the identity key is absent
from the previous snapshot. -/
def addedPred {T K : Type} [DecidableEq K] (idOf : T → K) (prev : List (K × T))
    (t : T) : Bool :=
  (lookupKey prev (idOf t)).isNone

/-- The predicate §4.2 step 2 uses for `modified`: the identity key is
present in the previous snapshot but the stored value is not deeply equal. -/
def modifiedPred {T K : Type} [DecidableEq K] (idOf : T → K) (eqv : T → T → Bool)
    (prev : List (K × T)) (t : T) : Bool :=
  match lookupKey prev (idOf t) with
  | some p => !eqv p t
  | none => false

/-- Modelled from the spec: the Change Detector implementation is absent from
the source tree (only the `RepositoryChanges` shape is declared); §4.2
`diff(previous, current, identityOf)`: scan `current` in order for `added`
and `modified` (deep comparison `eqv` against the stored previous value),
then append to `deleted` every previous entity whose key is absent from the
identity-keyed mapping of `current`, iterating `previous` in stored order. -/
def diff {T K : Type} [DecidableEq K] (idOf : T → K) (eqv : T → T → Bool)
    (prev : List (K × T)) (cur : List T) : RepositoryChanges T :=
  let am := scanCurrent idOf eqv prev cur
  let cbk := buildByKey idOf cur
  { added := am.1
    modified := am.2
    deleted := (prev.filter fun p => (lookupKey cbk p.1).isNone).map Prod.snd }

/-- How many entities in a sequence carry a given identity key. -/
def keyCount {T K : Type} [DecidableEq K] (idOf : T → K) (key : K)
    (l : List T) : Nat :=
  (l.filter fun t => decide (idOf t = key)).length

/-- The identity of an entity: its `id` field, when assigned (spec §3). -/
def identityOf (e : Entity) : Option Value := lookupKey e "id"

/-- The resource key the mapping assigns to the `id` entity field. -/
def idKeyOf (m : Mapping) : String :=
  match lookupKey m "id" with
  | some pm => pm.«to»
  | none => "id"

/-- Modelled from the spec: the backend adapter port's
`persistResource(resource) -> resource` (§6), on an in-memory resource list:
replace the resource carrying the same identity key value, else append. -/
def persistResource (idKey : String) : List Resource → Resource → List Resource
  | [], r => [r]
  | b :: rest, r =>
    if lookupKey b idKey = lookupKey r idKey then r :: rest
    else b :: persistResource idKey rest r

/-- Modelled from the spec: the backend adapter port's
`deleteResource(identity) -> void` (§6), on an in-memory resource list. -/
def deleteResource (idKey : String) (backend : List Resource) (idv : Value) :
    List Resource :=
  backend.filter fun b => !(decide (lookupKey b idKey = some idv))

/-- Convert every fetched backend resource to an entity; the first mapping
failure aborts (spec §7 propagation policy). -/
def fromResources (m : Mapping) : List Resource → Except MappingError (List Entity)
  | [] => .ok []
  | r :: rest =>
    match fromResource m r with
    | .ok e =>
      match fromResources m rest with
      | .ok es => .ok (e :: es)
      | .error err => .error err
    | .error err => .error err

/-- Modelled from the spec (§7): errors a repository operation surfaces to
its caller. -/
inductive RepoError where
  | mappingError (err : MappingError)
  | missingIdentityError
  deriving DecidableEq

/-- A backend adapter port call observed during a repository operation (§6). -/
inductive BackendCall where
  | fetch
  | persist (r : Resource)
  | delete (idv : Value)
  deriving DecidableEq

/-- A repository instance's state: its identity-keyed Snapshot (§3) and the
in-memory model of the backend adapter's resource collection. -/
structure RepoState where
  snapshot : List (Option Value × Entity)
  backend : List Resource
  deriving DecidableEq

/-- The observable outcome of one repository operation: the result surfaced
to the caller, the backend adapter calls made, the resulting repository
state, and the `changes` events emitted to listeners. -/
structure Outcome (α : Type) where
  result : Except RepoError α
  calls : List BackendCall
  state : RepoState
  events : List (RepositoryChanges Entity)

namespace Repo

/-- Modelled from the spec: the Repository implementation is absent from the
source tree (only the `Repository` interface is declared, entity-mapping.ts
lines 180-196); §4.3 `update`: fail with `MissingIdentityError` before any
backend call when the entity has no assigned identity; otherwise convert via
the Mapping Engine (a `MappingError` aborts before any backend call), persist
through the adapter port, refetch, run the Change Detector against the prior
Snapshot, replace the Snapshot and emit one `changes` event; every error
aborts before Snapshot mutation or event emission (§7). -/
def update (m : Mapping) (st : RepoState) (e : Entity) : Outcome Entity :=
  match identityOf e with
  | none => { result := .error .missingIdentityError, calls := [], state := st, events := [] }
  | some _ =>
    match toResource m e with
    | .error err =>
      { result := .error (.mappingError err), calls := [], state := st, events := [] }
    | .ok r =>
      let backend2 := persistResource (idKeyOf m) st.backend r
      match fromResources m backend2 with
      | .error err =>
        { result := .error (.mappingError err)
          calls := [.persist r, .fetch]
          state := { snapshot := st.snapshot, backend := backend2 }
          events := [] }
      | .ok cur =>
        let ch := diff identityOf entityEqv st.snapshot cur
        { result := .ok e
          calls := [.persist r, .fetch]
          state := { snapshot := buildByKey identityOf cur, backend := backend2 }
          events := [ch] }

/-- Modelled from the spec: §4.3 `remove` (interface declared at
entity-mapping.ts lines 198-213): fail with `MissingIdentityError` before any
backend call when the entity has no assigned identity; otherwise delete
through the adapter port, refetch, diff, replace the Snapshot and emit one
`changes` event; every error aborts before Snapshot mutation or event
emission (§7). -/
def remove (m : Mapping) (st : RepoState) (e : Entity) : Outcome Unit :=
  match identityOf e with
  | none => { result := .error .missingIdentityError, calls := [], state := st, events := [] }
  | some idv =>
    let backend2 := deleteResource (idKeyOf m) st.backend idv
    match fromResources m backend2 with
    | .error err =>
      { result := .error (.mappingError err)
        calls := [.delete idv, .fetch]
        state := { snapshot := st.snapshot, backend := backend2 }
        events := [] }
    | .ok cur =>
      let ch := diff identityOf entityEqv st.snapshot cur
      { result := .ok ()
        calls := [.delete idv, .fetch]
        state := { snapshot := buildByKey identityOf cur, backend := backend2 }
        events := [ch] }

end Repo

/-! ### Record lemmas -/

section RecordLemmas

variable {K α : Type} [DecidableEq K]

theorem lookupKey_eq_none_of_not_mem (l : List (K × α)) (key : K)
    (h : key ∉ l.map Prod.fst) : lookupKey l key = none := by
  induction l with
  | nil => rfl
  | cons p rest ih =>
    obtain ⟨k, a⟩ := p
    simp only [List.map_cons, List.mem_cons, not_or] at h
    obtain ⟨h1, h2⟩ := h
    have hk : k ≠ key := fun he => h1 he.symm
    simp only [lookupKey, if_neg hk]
    exact ih h2

theorem lookupKey_of_mem_nodup (l : List (K × α)) (k : K) (a : α)
    (hn : (l.map Prod.fst).Nodup) (hm : (k, a) ∈ l) : lookupKey l k = some a := by
  induction l with
  | nil => cases hm
  | cons p rest ih =>
    obtain ⟨kB, b⟩ := p
    simp only [List.map_cons, List.nodup_cons] at hn
    rcases List.mem_cons.mp hm with h | h
    · injection h with h1 h2
      subst h1
      subst h2
      simp [lookupKey]
    · have hmem : k ∈ List.map Prod.fst rest := List.mem_map_of_mem Prod.fst h
      have hne : kB ≠ k := by
        intro he
        rw [he] at hn
        exact hn.1 hmem
      simp only [lookupKey, if_neg hne]
      exact ih hn.2 h

theorem lookupKey_setKey_ne (l : List (K × α)) (key k : K) (a : α)
    (h : k ≠ key) : lookupKey (setKey l key a) k = lookupKey l k := by
  have hne : key ≠ k := fun he => h he.symm
  induction l with
  | nil => simp [setKey, lookupKey, hne]
  | cons p rest ih =>
    obtain ⟨kB, b⟩ := p
    by_cases hk : kB = key
    · subst hk
      simp [setKey, lookupKey, hne]
    · simp only [setKey, if_neg hk, lookupKey]
      by_cases hk2 : kB = k
      · simp [hk2]
      · simp [hk2, ih]

theorem setKey_eq_append (l : List (K × α)) (key : K) (a : α)
    (h : key ∉ l.map Prod.fst) : setKey l key a = l ++ [(key, a)] := by
  induction l with
  | nil => rfl
  | cons p rest ih =>
    obtain ⟨k, b⟩ := p
    simp only [List.map_cons, List.mem_cons, not_or] at h
    obtain ⟨h1, h2⟩ := h
    have hk : k ≠ key := fun he => h1 he.symm
    simp only [setKey, if_neg hk, List.cons_append]
    rw [ih h2]

theorem lookupKey_append_left (l1 l2 : List (K × α)) (key : K) (a : α)
    (h : lookupKey l1 key = some a) : lookupKey (l1 ++ l2) key = some a := by
  induction l1 with
  | nil => simp [lookupKey] at h
  | cons p rest ih =>
    obtain ⟨k, b⟩ := p
    by_cases hk : k = key
    · simp only [lookupKey, if_pos hk] at h
      simp [List.cons_append, lookupKey, hk, h]
    · simp only [lookupKey, if_neg hk] at h
      simp only [List.cons_append, lookupKey, if_neg hk]
      exact ih h

theorem lookupKey_append_right (l1 l2 : List (K × α)) (key : K)
    (h : lookupKey l1 key = none) : lookupKey (l1 ++ l2) key = lookupKey l2 key := by
  induction l1 with
  | nil => rfl
  | cons p rest ih =>
    obtain ⟨k, b⟩ := p
    by_cases hk : k = key
    · simp [lookupKey, if_pos hk] at h
    · simp only [lookupKey, if_neg hk] at h
      simp only [List.cons_append, lookupKey, if_neg hk]
      exact ih h

theorem filter_key_nil {T : Type} (f : T → K) (l : List T) (key : K)
    (h : key ∉ l.map f) : l.filter (fun t => decide (f t = key)) = [] := by
  induction l with
  | nil => rfl
  | cons a rest ih =>
    simp only [List.map_cons, List.mem_cons, not_or] at h
    obtain ⟨h1, h2⟩ := h
    have hne : f a ≠ key := fun he => h1 he.symm
    simp only [List.filter_cons, decide_eq_true_eq, if_neg hne]
    exact ih h2

theorem filter_key_singleton {T : Type} (f : T → K) (l : List T) (key : K) (t0 : T)
    (hn : (l.map f).Nodup) (ht : t0 ∈ l) (hk : f t0 = key) :
    l.filter (fun t => decide (f t = key)) = [t0] := by
  induction l with
  | nil => cases ht
  | cons a rest ih =>
    simp only [List.map_cons, List.nodup_cons] at hn
    rcases List.mem_cons.mp ht with h | h
    · subst h
      simp only [List.filter_cons, decide_eq_true_eq, if_pos hk]
      rw [filter_key_nil f rest key (hk ▸ hn.1)]
    · have hmem : key ∈ List.map f rest := hk ▸ List.mem_map_of_mem f h
      have hne : f a ≠ key := by
        intro he
        rw [he] at hn
        exact hn.1 hmem
      simp only [List.filter_cons, decide_eq_true_eq, if_neg hne]
      exact ih hn.2 h

theorem filter_key_length_le_one {T : Type} (f : T → K) (l : List T) (key : K)
    (hn : (l.map f).Nodup) :
    (l.filter fun t => decide (f t = key)).length ≤ 1 := by
  by_cases hmem : key ∈ l.map f
  · obtain ⟨t0, ht0, hk0⟩ := List.mem_map.mp hmem
    rw [filter_key_singleton f l key t0 hn ht0 hk0]
    exact Nat.le_refl 1
  · rw [filter_key_nil f l key hmem]
    exact Nat.zero_le 1

end RecordLemmas

/-! ### Coercion lemmas -/

theorem coerce_round (t : PrimitiveType) (v : Value) (h : typeMatches t v = true) :
    ∃ rv, coerceForward t v = some rv ∧ coerceBackward t rv = some v := by
  cases t <;> cases v <;> simp_all [typeMatches, coerceForward, coerceBackward]

theorem coerceForward_isSome (t : PrimitiveType) (v : Value) :
    (coerceForward t v).isSome = typeMatches t v := by
  cases t <;> cases v <;> rfl

/-! ### Claim C10 -/

/-- C10: `helloGSheets` is pure and deterministic: it is a constant function
returning exactly the string "Hello from GSheets!", and as a pure Lean value
it can have no other effect. -/
theorem c10_helloGSheets_constant : helloGSheets = "Hello from GSheets!" := rfl

/-! ### Claim C9 -/

/-- C9 counterexample: neither `EntityMapping` declaration makes every value
total over the entity's field set. Against the grepo-core declaration
(entity-mapping.ts lines 42-44): since the homomorphic mapped type preserves
TypeScript's `?` modifier, for an entity with the canonical optional `id?`
field (spec §3, and the file's own `TaskEntity` example declares
`id?: string`) the value that maps only `title` and `done` typechecks yet
assigns no entry to the field `id`. Against the src/unnamed/part_000
declaration, where every key is optional: the empty record is a valid
`EntityMapping<SheetRow>` value assigning no entry to `rowNumber`. -/
theorem c9_entityMapping_counterexample :
    conformsCoreEntityMapping ["title", "done"] ["id"]
        [("title", PropertyMapping.mk "summary" .string none),
         ("done", PropertyMapping.mk "status" .boolean none)] = true
      ∧ ([("title", PropertyMapping.mk "summary" .string none),
           ("done", PropertyMapping.mk "status" .boolean none)].filter
            (fun p => decide (p.1 = "id"))).length = 0
      ∧ conformsPartEntityMapping ["rowNumber", "values"] [] = true
      ∧ (([] : List (String × Value)).filter
          (fun p => decide (p.1 = "rowNumber"))).length = 0 := by
  refine ⟨by decide, rfl, rfl, rfl⟩

/-- C9 (amended): a value of the grepo-core `EntityMapping<TEntity>` type
(entity-mapping.ts lines 42-44) assigns exactly one `PropertyMapping` entry
to every required field key of the entity type, and at most one entry to any
key; because the homomorphic mapped type preserves TypeScript's `?`
modifier, an optional entity field (such as the canonical `id?`) may have
its entry omitted, so the mapping need not be total over the entity's full
field set. The second `EntityMapping` declaration in src/unnamed/part_000
makes every key optional with `unknown` values and guarantees totality for
no field at all. -/
theorem c9_entityMapping_total (requiredKeys optionalKeys : List String)
    (v : List (String × PropertyMapping))
    (h : conformsCoreEntityMapping requiredKeys optionalKeys v = true) :
    (∀ k ∈ requiredKeys, (v.filter fun p => decide (p.1 = k)).length = 1)
  ∧ (∀ k : String, (v.filter fun p => decide (p.1 = k)).length ≤ 1) := by
  simp only [conformsCoreEntityMapping, Bool.and_eq_true, decide_eq_true_eq,
    List.all_eq_true] at h
  obtain ⟨⟨hn, hcov⟩, _⟩ := h
  constructor
  · intro k hk
    have hmem : k ∈ v.map Prod.fst := hcov k hk
    obtain ⟨p, hp, hpk⟩ := List.mem_map.mp hmem
    rw [filter_key_singleton Prod.fst v k p hn hp hpk]
    rfl
  · intro k
    exact filter_key_length_le_one Prod.fst v k hn

/-! ### Mapping-engine lemmas -/

theorem not_mem_of_nodup_split {β : Type} (l1 l2 : List β) (a : β)
    (h : (l1 ++ a :: l2).Nodup) : a ∉ l1 ∧ a ∉ l2 := by
  rw [List.nodup_append] at h
  obtain ⟨_, h2, hd⟩ := h
  rw [List.nodup_cons] at h2
  refine ⟨fun ha => ?_, h2.1⟩
  exact hd ha (List.mem_cons_self a l2)

theorem toResourceAux_cons_ok (e : Entity) (k : String) (pm : PropertyMapping)
    (rest : Mapping) (acc : Resource) (v rv : Value)
    (hl : lookupKey e k = some v) (hc : coerceForward pm.type v = some rv) :
    toResourceAux e ((k, pm) :: rest) acc =
      toResourceAux e rest (setKey acc pm.«to» rv) := by
  simp [toResourceAux, hl, hc]

theorem toResourceAux_cons_coerr (e : Entity) (k : String) (pm : PropertyMapping)
    (rest : Mapping) (acc : Resource) (v : Value)
    (hl : lookupKey e k = some v) (hc : coerceForward pm.type v = none) :
    toResourceAux e ((k, pm) :: rest) acc =
      .error (.coercionFailure k .forward) := by
  simp [toResourceAux, hl, hc]

theorem toResourceAux_cons_opt (e : Entity) (k : String) (pm : PropertyMapping)
    (rest : Mapping) (acc : Resource)
    (hl : lookupKey e k = none) (ho : pm.optional = some true) :
    toResourceAux e ((k, pm) :: rest) acc = toResourceAux e rest acc := by
  simp [toResourceAux, hl, ho]

theorem toResourceAux_cons_req (e : Entity) (k : String) (pm : PropertyMapping)
    (rest : Mapping) (acc : Resource)
    (hl : lookupKey e k = none) (ho : pm.optional ≠ some true) :
    toResourceAux e ((k, pm) :: rest) acc =
      .error (.missingRequiredField k .forward) := by
  simp only [toResourceAux, hl]
  rw [if_neg ho]

theorem fromResourceAux_cons_ok (r : Resource) (k : String) (pm : PropertyMapping)
    (rest : Mapping) (acc : Entity) (rv v : Value)
    (hl : lookupKey r pm.«to» = some rv) (hc : coerceBackward pm.type rv = some v) :
    fromResourceAux r ((k, pm) :: rest) acc =
      fromResourceAux r rest (setKey acc k v) := by
  simp [fromResourceAux, hl, hc]

theorem fromResourceAux_cons_coerr (r : Resource) (k : String)
    (pm : PropertyMapping) (rest : Mapping) (acc : Entity) (rv : Value)
    (hl : lookupKey r pm.«to» = some rv) (hc : coerceBackward pm.type rv = none) :
    fromResourceAux r ((k, pm) :: rest) acc =
      .error (.coercionFailure k .backward) := by
  simp [fromResourceAux, hl, hc]

theorem fromResourceAux_cons_opt (r : Resource) (k : String)
    (pm : PropertyMapping) (rest : Mapping) (acc : Entity)
    (hl : lookupKey r pm.«to» = none) (ho : pm.optional = some true) :
    fromResourceAux r ((k, pm) :: rest) acc = fromResourceAux r rest acc := by
  simp [fromResourceAux, hl, ho]

theorem fromResourceAux_cons_req (r : Resource) (k : String)
    (pm : PropertyMapping) (rest : Mapping) (acc : Entity)
    (hl : lookupKey r pm.«to» = none) (ho : pm.optional ≠ some true) :
    fromResourceAux r ((k, pm) :: rest) acc =
      .error (.missingRequiredField k .backward) := by
  simp only [fromResourceAux, hl]
  rw [if_neg ho]

theorem toResourceAux_append_ok (e : Entity) (m1 m2 : Mapping) :
    ∀ (acc r2 : Resource), toResourceAux e (m1 ++ m2) acc = .ok r2 →
      ∃ r1, toResourceAux e m1 acc = .ok r1 ∧ toResourceAux e m2 r1 = .ok r2 := by
  induction m1 with
  | nil =>
    intro acc r2 h
    exact ⟨acc, rfl, h⟩
  | cons q rest ih =>
    intro acc r2 h
    obtain ⟨k, pm⟩ := q
    rw [List.cons_append] at h
    cases hl : lookupKey e k with
    | some v =>
      cases hc : coerceForward pm.type v with
      | some rv =>
        rw [toResourceAux_cons_ok e k pm (rest ++ m2) acc v rv hl hc] at h
        rw [toResourceAux_cons_ok e k pm rest acc v rv hl hc]
        exact ih _ r2 h
      | none =>
        rw [toResourceAux_cons_coerr e k pm (rest ++ m2) acc v hl hc] at h
        cases h
    | none =>
      by_cases ho : pm.optional = some true
      · rw [toResourceAux_cons_opt e k pm (rest ++ m2) acc hl ho] at h
        rw [toResourceAux_cons_opt e k pm rest acc hl ho]
        exact ih _ r2 h
      · rw [toResourceAux_cons_req e k pm (rest ++ m2) acc hl ho] at h
        cases h

theorem fromResourceAux_append_ok (r : Resource) (m1 m2 : Mapping) :
    ∀ (acc e2 : Entity), fromResourceAux r (m1 ++ m2) acc = .ok e2 →
      ∃ e1, fromResourceAux r m1 acc = .ok e1 ∧ fromResourceAux r m2 e1 = .ok e2 := by
  induction m1 with
  | nil =>
    intro acc e2 h
    exact ⟨acc, rfl, h⟩
  | cons q rest ih =>
    intro acc e2 h
    obtain ⟨k, pm⟩ := q
    rw [List.cons_append] at h
    cases hl : lookupKey r pm.«to» with
    | some rv =>
      cases hc : coerceBackward pm.type rv with
      | some v =>
        rw [fromResourceAux_cons_ok r k pm (rest ++ m2) acc rv v hl hc] at h
        rw [fromResourceAux_cons_ok r k pm rest acc rv v hl hc]
        exact ih _ e2 h
      | none =>
        rw [fromResourceAux_cons_coerr r k pm (rest ++ m2) acc rv hl hc] at h
        cases h
    | none =>
      by_cases ho : pm.optional = some true
      · rw [fromResourceAux_cons_opt r k pm (rest ++ m2) acc hl ho] at h
        rw [fromResourceAux_cons_opt r k pm rest acc hl ho]
        exact ih _ e2 h
      · rw [fromResourceAux_cons_req r k pm (rest ++ m2) acc hl ho] at h
        cases h

theorem toResourceAux_lookup_unchanged (e : Entity) (m : Mapping) (key : String) :
    ∀ (acc r2 : Resource), toResourceAux e m acc = .ok r2 →
      key ∉ m.map (fun p => p.2.«to») → lookupKey r2 key = lookupKey acc key := by
  induction m with
  | nil =>
    intro acc r2 h _
    simp only [toResourceAux] at h
    injection h with h2
    rw [← h2]
  | cons q rest ih =>
    intro acc r2 h hnot
    obtain ⟨k, pm⟩ := q
    simp only [List.map_cons, List.mem_cons, not_or] at hnot
    obtain ⟨hne, hnot2⟩ := hnot
    cases hl : lookupKey e k with
    | some v =>
      cases hc : coerceForward pm.type v with
      | some rv =>
        rw [toResourceAux_cons_ok e k pm rest acc v rv hl hc] at h
        rw [ih _ r2 h hnot2]
        exact lookupKey_setKey_ne acc pm.«to» key rv hne
      | none =>
        rw [toResourceAux_cons_coerr e k pm rest acc v hl hc] at h
        cases h
    | none =>
      by_cases ho : pm.optional = some true
      · rw [toResourceAux_cons_opt e k pm rest acc hl ho] at h
        exact ih _ r2 h hnot2
      · rw [toResourceAux_cons_req e k pm rest acc hl ho] at h
        cases h

theorem fromResourceAux_lookup_unchanged (r : Resource) (m : Mapping) (key : String) :
    ∀ (acc e2 : Entity), fromResourceAux r m acc = .ok e2 →
      key ∉ m.map Prod.fst → lookupKey e2 key = lookupKey acc key := by
  induction m with
  | nil =>
    intro acc e2 h _
    simp only [fromResourceAux] at h
    injection h with h2
    rw [← h2]
  | cons q rest ih =>
    intro acc e2 h hnot
    obtain ⟨k, pm⟩ := q
    simp only [List.map_cons, List.mem_cons, not_or] at hnot
    obtain ⟨hne, hnot2⟩ := hnot
    cases hl : lookupKey r pm.«to» with
    | some rv =>
      cases hc : coerceBackward pm.type rv with
      | some v =>
        rw [fromResourceAux_cons_ok r k pm rest acc rv v hl hc] at h
        rw [ih _ e2 h hnot2]
        exact lookupKey_setKey_ne acc k key v hne
      | none =>
        rw [fromResourceAux_cons_coerr r k pm rest acc rv hl hc] at h
        cases h
    | none =>
      by_cases ho : pm.optional = some true
      · rw [fromResourceAux_cons_opt r k pm rest acc hl ho] at h
        exact ih _ e2 h hnot2
      · rw [fromResourceAux_cons_req r k pm rest acc hl ho] at h
        cases h

theorem toResourceAux_error_of_not_clean (e : Entity) (m : Mapping)
    (p0 : String × PropertyMapping) (hmem : p0 ∈ m)
    (hbad : cleanField e p0 = false) :
    ∀ acc, ∃ err, toResourceAux e m acc = .error err := by
  induction m with
  | nil => cases hmem
  | cons q rest ih =>
    intro acc
    obtain ⟨k, pm⟩ := q
    cases hl : lookupKey e k with
    | some v =>
      cases hc : coerceForward pm.type v with
      | some rv =>
        have hq : p0 ∈ rest := by
          rcases List.mem_cons.mp hmem with h | h
          · exfalso
            rw [h] at hbad
            have hma : typeMatches pm.type v = true := by
              rw [← coerceForward_isSome, hc]
              rfl
            simp [cleanField, hl, hma] at hbad
          · exact h
        obtain ⟨err, herr⟩ := ih hq (setKey acc pm.«to» rv)
        exact ⟨err, by rw [toResourceAux_cons_ok e k pm rest acc v rv hl hc, herr]⟩
      | none => exact ⟨_, toResourceAux_cons_coerr e k pm rest acc v hl hc⟩
    | none =>
      by_cases ho : pm.optional = some true
      · have hq : p0 ∈ rest := by
          rcases List.mem_cons.mp hmem with h | h
          · exfalso
            rw [h] at hbad
            simp [cleanField, hl, ho] at hbad
          · exact h
        obtain ⟨err, herr⟩ := ih hq acc
        exact ⟨err, by rw [toResourceAux_cons_opt e k pm rest acc hl ho, herr]⟩
      · exact ⟨_, toResourceAux_cons_req e k pm rest acc hl ho⟩

theorem fromResourceAux_error_of_not_clean (r : Resource) (m : Mapping)
    (p0 : String × PropertyMapping) (hmem : p0 ∈ m)
    (hbad : cleanFieldBwd r p0 = false) :
    ∀ acc, ∃ err, fromResourceAux r m acc = .error err := by
  induction m with
  | nil => cases hmem
  | cons q rest ih =>
    intro acc
    obtain ⟨k, pm⟩ := q
    cases hl : lookupKey r pm.«to» with
    | some rv =>
      cases hc : coerceBackward pm.type rv with
      | some v =>
        have hq : p0 ∈ rest := by
          rcases List.mem_cons.mp hmem with h | h
          · exfalso
            rw [h] at hbad
            simp [cleanFieldBwd, hl, hc] at hbad
          · exact h
        obtain ⟨err, herr⟩ := ih hq (setKey acc k v)
        exact ⟨err, by rw [fromResourceAux_cons_ok r k pm rest acc rv v hl hc, herr]⟩
      | none => exact ⟨_, fromResourceAux_cons_coerr r k pm rest acc rv hl hc⟩
    | none =>
      by_cases ho : pm.optional = some true
      · have hq : p0 ∈ rest := by
          rcases List.mem_cons.mp hmem with h | h
          · exfalso
            rw [h] at hbad
            simp [cleanFieldBwd, hl, ho] at hbad
          · exact h
        obtain ⟨err, herr⟩ := ih hq acc
        exact ⟨err, by rw [fromResourceAux_cons_opt r k pm rest acc hl ho, herr]⟩
      · exact ⟨_, fromResourceAux_cons_req r k pm rest acc hl ho⟩

theorem toResourceAux_clean_cons (e : Entity) (q : String × PropertyMapping)
    (rest : Mapping) (hq : cleanField e q = true) (acc : Resource) :
    ∃ acc2, toResourceAux e (q :: rest) acc = toResourceAux e rest acc2 := by
  obtain ⟨k, pm⟩ := q
  cases hl : lookupKey e k with
  | some v =>
    have hma : typeMatches pm.type v = true := by
      simpa [cleanField, hl] using hq
    have hs : (coerceForward pm.type v).isSome = true := by
      rw [coerceForward_isSome, hma]
    cases hc : coerceForward pm.type v with
    | some rv =>
      exact ⟨setKey acc pm.«to» rv, toResourceAux_cons_ok e k pm rest acc v rv hl hc⟩
    | none =>
      rw [hc] at hs
      cases hs
  | none =>
    have ho : pm.optional = some true := by
      simpa [cleanField, hl] using hq
    exact ⟨acc, toResourceAux_cons_opt e k pm rest acc hl ho⟩

theorem fromResourceAux_clean_cons (r : Resource) (q : String × PropertyMapping)
    (rest : Mapping) (hq : cleanFieldBwd r q = true) (acc : Entity) :
    ∃ acc2, fromResourceAux r (q :: rest) acc = fromResourceAux r rest acc2 := by
  obtain ⟨k, pm⟩ := q
  cases hl : lookupKey r pm.«to» with
  | some rv =>
    have hs : (coerceBackward pm.type rv).isSome = true := by
      simpa [cleanFieldBwd, hl] using hq
    cases hc : coerceBackward pm.type rv with
    | some v =>
      exact ⟨setKey acc k v, fromResourceAux_cons_ok r k pm rest acc rv v hl hc⟩
    | none =>
      rw [hc] at hs
      cases hs
  | none =>
    have ho : pm.optional = some true := by
      simpa [cleanFieldBwd, hl] using hq
    exact ⟨acc, fromResourceAux_cons_opt r k pm rest acc hl ho⟩

theorem toResourceAux_first_missing (e : Entity) (m1 m2 : Mapping) (k : String)
    (pm : PropertyMapping) (hclean : ∀ p ∈ m1, cleanField e p = true)
    (habs : lookupKey e k = none) (hreq : pm.optional ≠ some true) :
    ∀ acc, toResourceAux e (m1 ++ (k, pm) :: m2) acc =
      .error (.missingRequiredField k .forward) := by
  induction m1 with
  | nil =>
    intro acc
    rw [List.nil_append]
    exact toResourceAux_cons_req e k pm m2 acc habs hreq
  | cons q rest ih =>
    intro acc
    rw [List.cons_append]
    obtain ⟨acc2, hstep⟩ := toResourceAux_clean_cons e q (rest ++ (k, pm) :: m2)
      (hclean q (List.mem_cons_self q rest)) acc
    rw [hstep]
    exact ih (fun p hp => hclean p (List.mem_cons_of_mem q hp)) acc2

theorem toResourceAux_first_coercion (e : Entity) (m1 m2 : Mapping) (k : String)
    (pm : PropertyMapping) (v : Value) (hclean : ∀ p ∈ m1, cleanField e p = true)
    (hval : lookupKey e k = some v) (hbad : coerceForward pm.type v = none) :
    ∀ acc, toResourceAux e (m1 ++ (k, pm) :: m2) acc =
      .error (.coercionFailure k .forward) := by
  induction m1 with
  | nil =>
    intro acc
    rw [List.nil_append]
    exact toResourceAux_cons_coerr e k pm m2 acc v hval hbad
  | cons q rest ih =>
    intro acc
    rw [List.cons_append]
    obtain ⟨acc2, hstep⟩ := toResourceAux_clean_cons e q (rest ++ (k, pm) :: m2)
      (hclean q (List.mem_cons_self q rest)) acc
    rw [hstep]
    exact ih (fun p hp => hclean p (List.mem_cons_of_mem q hp)) acc2

theorem fromResourceAux_first_coercion (r : Resource) (m1 m2 : Mapping) (k : String)
    (pm : PropertyMapping) (rv : Value)
    (hclean : ∀ p ∈ m1, cleanFieldBwd r p = true)
    (hval : lookupKey r pm.«to» = some rv)
    (hbad : coerceBackward pm.type rv = none) :
    ∀ acc, fromResourceAux r (m1 ++ (k, pm) :: m2) acc =
      .error (.coercionFailure k .backward) := by
  induction m1 with
  | nil =>
    intro acc
    rw [List.nil_append]
    exact fromResourceAux_cons_coerr r k pm m2 acc rv hval hbad
  | cons q rest ih =>
    intro acc
    rw [List.cons_append]
    obtain ⟨acc2, hstep⟩ := fromResourceAux_clean_cons r q (rest ++ (k, pm) :: m2)
      (hclean q (List.mem_cons_self q rest)) acc
    rw [hstep]
    exact ih (fun p hp => hclean p (List.mem_cons_of_mem q hp)) acc2

/-! ### Claim C3 -/

/-- C3 counterexample: optional omission fails when two mapped fields alias
the same `to` resource key. With mapping
`a -> \x7bto: "x", string, optional\x7d, b -> \x7bto: "x", string\x7d` and
entity `\x7bb: "v"\x7d`, the optional field `a` is absent, yet the resource
produced by `toResource` does contain the key `"x"` (written by `b`), so the
claim as stated over all entities and mappings is false. -/
theorem c3_optional_omission_counterexample :
    ("a", PropertyMapping.mk "x" .string (some true)) ∈
        [("a", PropertyMapping.mk "x" .string (some true)),
         ("b", PropertyMapping.mk "x" .string none)]
      ∧ (PropertyMapping.mk "x" .string (some true)).optional = some true
      ∧ lookupKey [("b", Value.str "v")] "a" = none
      ∧ toResource
          [("a", PropertyMapping.mk "x" .string (some true)),
           ("b", PropertyMapping.mk "x" .string none)]
          [("b", Value.str "v")] = .ok [("x", Value.str "v")]
      ∧ lookupKey [("x", Value.str "v")] "x" ≠ none := by
  refine ⟨by decide, rfl, rfl, rfl, by decide⟩

/-- C3 (amended): optional omission, under the spec's default 1:1 field
correspondence (§3) for the forward direction. Forward: when a mapped field
is optional and absent on the entity and the mapping's `to` targets are
pairwise distinct, the resource a successful `toResource` returns does not
contain that field's `to` key at all. Backward, symmetrically: when the `to`
key is absent from the resource (entity field keys are unique in a
TypeScript mapping object), the entity a successful `fromResource` returns
does not contain that field. -/
theorem c3_optional_omission :
    (∀ (m : Mapping) (e : Entity) (r : Resource) (k : String) (pm : PropertyMapping),
        (m.map fun p => p.2.«to»).Nodup → toResource m e = .ok r → (k, pm) ∈ m →
        pm.optional = some true → lookupKey e k = none → lookupKey r pm.«to» = none)
  ∧ (∀ (m : Mapping) (r : Resource) (e2 : Entity) (k : String) (pm : PropertyMapping),
        (m.map Prod.fst).Nodup → fromResource m r = .ok e2 → (k, pm) ∈ m →
        pm.optional = some true → lookupKey r pm.«to» = none → lookupKey e2 k = none) := by
  constructor
  · intro m e r k pm ht hok hmem hopt habs
    obtain ⟨m1, m2, hsplit⟩ := List.append_of_mem hmem
    subst hsplit
    rw [List.map_append, List.map_cons] at ht
    obtain ⟨ht1, ht2⟩ := not_mem_of_nodup_split _ _ _ ht
    obtain ⟨r1, h1, h2⟩ := toResourceAux_append_ok e m1 ((k, pm) :: m2) [] r hok
    simp only [toResourceAux, habs] at h2
    rw [if_pos hopt] at h2
    rw [toResourceAux_lookup_unchanged e m2 pm.«to» r1 r h2 ht2]
    rw [toResourceAux_lookup_unchanged e m1 pm.«to» [] r1 h1 ht1]
    rfl
  · intro m r e2 k pm hm hok hmem hopt habs
    obtain ⟨m1, m2, hsplit⟩ := List.append_of_mem hmem
    subst hsplit
    rw [List.map_append, List.map_cons] at hm
    obtain ⟨hm1, hm2⟩ := not_mem_of_nodup_split _ _ _ hm
    obtain ⟨e1, h1, h2⟩ := fromResourceAux_append_ok r m1 ((k, pm) :: m2) [] e2 hok
    simp only [fromResourceAux, habs] at h2
    rw [if_pos hopt] at h2
    rw [fromResourceAux_lookup_unchanged r m2 k e1 e2 h2 hm2]
    rw [fromResourceAux_lookup_unchanged r m1 k [] e1 h1 hm1]
    rfl

/-- C3 witness: both directions of the amended omission theorem at the
spec's §8 example, where the optional `id` field is absent. -/
theorem c3_optional_omission_witness :
    (([("id", PropertyMapping.mk "id" .string (some true)),
       ("title", PropertyMapping.mk "summary" .string none)] : Mapping).map
        (fun p => p.2.«to»)).Nodup
      ∧ toResource
          [("id", PropertyMapping.mk "id" .string (some true)),
           ("title", PropertyMapping.mk "summary" .string none)]
          [("title", Value.str "Buy milk")] = .ok [("summary", Value.str "Buy milk")]
      ∧ lookupKey [("summary", Value.str "Buy milk")] "id" = none
      ∧ lookupKey [("title", Value.str "Buy milk")] "id" = none := by
  refine ⟨by decide, rfl, ?_, ?_⟩
  · exact c3_optional_omission.1
      [("id", PropertyMapping.mk "id" .string (some true)),
       ("title", PropertyMapping.mk "summary" .string none)]
      [("title", Value.str "Buy milk")]
      [("summary", Value.str "Buy milk")]
      "id" (PropertyMapping.mk "id" .string (some true))
      (by decide) rfl (by decide) rfl rfl
  · exact c3_optional_omission.2
      [("id", PropertyMapping.mk "id" .string (some true)),
       ("title", PropertyMapping.mk "summary" .string none)]
      [("summary", Value.str "Buy milk")]
      [("title", Value.str "Buy milk")]
      "id" (PropertyMapping.mk "id" .string (some true))
      (by decide) rfl (by decide) rfl rfl

/-! ### List helper lemmas -/

theorem filter_false_nil {α : Type} (p : α → Bool) (l : List α)
    (h : ∀ a ∈ l, p a = false) : l.filter p = [] := by
  induction l with
  | nil => rfl
  | cons a rest ih =>
    rw [List.filter_cons, h a (List.mem_cons_self a rest)]
    exact ih fun x hx => h x (List.mem_cons_of_mem a hx)

theorem filter_ext {α : Type} (p q : α → Bool) (l : List α)
    (h : ∀ a ∈ l, p a = q a) : l.filter p = l.filter q := by
  induction l with
  | nil => rfl
  | cons a rest ih =>
    rw [List.filter_cons, List.filter_cons, h a (List.mem_cons_self a rest)]
    rw [ih fun x hx => h x (List.mem_cons_of_mem a hx)]

theorem filter_comm_weak {α : Type} (p q : α → Bool) (l : List α) :
    (l.filter p).filter q = (l.filter q).filter p := by
  induction l with
  | nil => rfl
  | cons a rest ih =>
    by_cases hp : p a <;> by_cases hq : q a <;>
      simp [List.filter_cons, hp, hq, ih]

theorem filter_of_map {α β : Type} (f : α → β) (p : β → Bool) (l : List α) :
    (l.map f).filter p = (l.filter fun a => p (f a)).map f := by
  induction l with
  | nil => rfl
  | cons a rest ih =>
    by_cases hp : p (f a) <;> simp [List.filter_cons, hp, ih]

theorem length_filter_key_of_mem {T K : Type} [DecidableEq K] (f : T → K)
    (l : List T) (key : K) (t0 : T) (p : T → Bool)
    (hn : (l.map f).Nodup) (ht : t0 ∈ l) (hk : f t0 = key) :
    ((l.filter p).filter fun t => decide (f t = key)).length =
      if p t0 then 1 else 0 := by
  rw [filter_comm_weak]
  rw [filter_key_singleton f l key t0 hn ht hk]
  cases hp : p t0 <;> simp [List.filter_cons, hp]

theorem length_filter_key_of_not_mem {T K : Type} [DecidableEq K] (f : T → K)
    (l : List T) (key : K) (p : T → Bool) (h : key ∉ l.map f) :
    ((l.filter p).filter fun t => decide (f t = key)).length = 0 := by
  have hnot : key ∉ (l.filter p).map f := by
    intro hmem
    obtain ⟨t, htl, htk⟩ := List.mem_map.mp hmem
    exact h (htk ▸ List.mem_map_of_mem f (List.mem_of_mem_filter htl))
  rw [filter_key_nil f (l.filter p) key hnot]
  rfl

/-! ### Change-detector lemmas -/

theorem scanCurrent_eq {T K : Type} [DecidableEq K] (idOf : T → K)
    (eqv : T → T → Bool) (prev : List (K × T)) (cur : List T) :
    scanCurrent idOf eqv prev cur =
      (cur.filter (addedPred idOf prev), cur.filter (modifiedPred idOf eqv prev)) := by
  induction cur with
  | nil => rfl
  | cons t rest ih =>
    simp only [scanCurrent, ih, List.filter_cons]
    cases hl : lookupKey prev (idOf t) with
    | none => simp [addedPred, modifiedPred, hl]
    | some p =>
      cases he : eqv p t <;> simp [addedPred, modifiedPred, hl, he]

theorem foldl_setKey_eq_append {T K : Type} [DecidableEq K] (idOf : T → K)
    (cur : List T) :
    ∀ acc : List (K × T), (∀ t ∈ cur, idOf t ∉ acc.map Prod.fst) →
      (cur.map idOf).Nodup →
      List.foldl (fun a t => setKey a (idOf t) t) acc cur =
        acc ++ cur.map (fun t => (idOf t, t)) := by
  induction cur with
  | nil =>
    intro acc _ _
    simp
  | cons t rest ih =>
    intro acc hdis hn
    rw [List.map_cons, List.nodup_cons] at hn
    rw [List.foldl_cons]
    rw [setKey_eq_append acc (idOf t) t (hdis t (List.mem_cons_self t rest))]
    rw [ih (acc ++ [(idOf t, t)]) ?_ hn.2]
    · rw [List.append_assoc, List.singleton_append, List.map_cons]
    · intro u hu
      rw [List.map_append, List.mem_append, not_or]
      refine ⟨hdis u (List.mem_cons_of_mem t hu), ?_⟩
      intro hmem
      have h1 : idOf u = idOf t := by simpa using hmem
      exact hn.1 (h1 ▸ List.mem_map_of_mem idOf hu)

theorem buildByKey_eq_map {T K : Type} [DecidableEq K] (idOf : T → K)
    (cur : List T) (hn : (cur.map idOf).Nodup) :
    buildByKey idOf cur = cur.map (fun t => (idOf t, t)) := by
  unfold buildByKey
  rw [foldl_setKey_eq_append idOf cur [] (by intro t _; simp) hn]
  rfl

theorem buildByKey_keys {T K : Type} [DecidableEq K] (idOf : T → K)
    (cur : List T) (hn : (cur.map idOf).Nodup) :
    (buildByKey idOf cur).map Prod.fst = cur.map idOf := by
  rw [buildByKey_eq_map idOf cur hn, List.map_map]
  rfl

theorem lookupKey_buildByKey_none {T K : Type} [DecidableEq K] (idOf : T → K)
    (cur : List T) (key : K) (hn : (cur.map idOf).Nodup)
    (h : key ∉ cur.map idOf) : lookupKey (buildByKey idOf cur) key = none := by
  apply lookupKey_eq_none_of_not_mem
  rw [buildByKey_keys idOf cur hn]
  exact h

theorem lookupKey_buildByKey_some {T K : Type} [DecidableEq K] (idOf : T → K)
    (cur : List T) (key : K) (t : T) (hn : (cur.map idOf).Nodup)
    (ht : t ∈ cur) (hk : idOf t = key) :
    lookupKey (buildByKey idOf cur) key = some t := by
  rw [buildByKey_eq_map idOf cur hn]
  apply lookupKey_of_mem_nodup
  · rw [List.map_map]
    exact hn
  · have : (idOf t, t) ∈ cur.map (fun t => (idOf t, t)) :=
      List.mem_map_of_mem _ ht
    rw [hk] at this
    exact this

/-! ### Claim C7 -/

/-- C7: order preservation of the diff. The `added` and `modified` sequences
are exactly the order-preserving filters of the `current` input sequence (so
they list entities in `current` order), and `deleted` is the
order-preserving filter of the previous snapshot in its own stored iteration
order; each sequence preserves discovery order during the diff scan. -/
theorem c7_diff_order {T K : Type} [DecidableEq K] (idOf : T → K)
    (eqv : T → T → Bool) (prev : List (K × T)) (cur : List T) :
    (diff idOf eqv prev cur).added = cur.filter (addedPred idOf prev)
  ∧ (diff idOf eqv prev cur).modified = cur.filter (modifiedPred idOf eqv prev)
  ∧ (diff idOf eqv prev cur).deleted =
      (prev.filter fun p => (lookupKey (buildByKey idOf cur) p.1).isNone).map
        Prod.snd := by
  refine ⟨?_, ?_, rfl⟩ <;> simp [diff, scanCurrent_eq]

theorem forall2_match_keys {T K : Type} (idOf : T → K) (eqv : T → T → Bool)
    (prev : List (K × T)) (cur : List T)
    (hmatch : List.Forall₂ (fun p t => idOf t = p.1 ∧ eqv p.2 t = true) prev cur) :
    cur.map idOf = prev.map Prod.fst := by
  induction hmatch with
  | nil => rfl
  | cons hr _ ih =>
    rw [List.map_cons, List.map_cons, ih, hr.1]

theorem forall2_match_lookup {T K : Type} (idOf : T → K) (eqv : T → T → Bool)
    (prev : List (K × T)) (cur : List T)
    (hmatch : List.Forall₂ (fun p t => idOf t = p.1 ∧ eqv p.2 t = true) prev cur) :
    ∀ t ∈ cur, ∃ p, p ∈ prev ∧ idOf t = p.1 ∧ eqv p.2 t = true := by
  induction hmatch with
  | nil =>
    intro t ht
    cases ht
  | cons hr htail ih =>
    intro t ht
    rcases List.mem_cons.mp ht with h | h
    · subst h
      exact ⟨_, List.mem_cons_self _ _, hr⟩
    · obtain ⟨p, hp2, hrel⟩ := ih t h
      exact ⟨p, List.mem_cons_of_mem _ hp2, hrel⟩

/-- C7 witness: the order characterization applied to a concrete two-entity
diff. -/
theorem c7_diff_order_witness :
    (diff identityOf entityEqv
        [(some (Value.str "1"), [("id", Value.str "1")])]
        [[("id", Value.str "2")], [("id", Value.str "3")]]).added =
      ([[("id", Value.str "2")], [("id", Value.str "3")]] : List Entity).filter
        (addedPred identityOf [(some (Value.str "1"), [("id", Value.str "1")])])
  ∧ (diff identityOf entityEqv
        [(some (Value.str "1"), [("id", Value.str "1")])]
        [[("id", Value.str "2")], [("id", Value.str "3")]]).modified =
      ([[("id", Value.str "2")], [("id", Value.str "3")]] : List Entity).filter
        (modifiedPred identityOf entityEqv
          [(some (Value.str "1"), [("id", Value.str "1")])])
  ∧ (diff identityOf entityEqv
        [(some (Value.str "1"), [("id", Value.str "1")])]
        [[("id", Value.str "2")], [("id", Value.str "3")]]).deleted =
      (([(some (Value.str "1"), [("id", Value.str "1")])] :
          List (Option Value × Entity)).filter fun p =>
        (lookupKey
          (buildByKey identityOf [[("id", Value.str "2")], [("id", Value.str "3")]])
          p.1).isNone).map Prod.snd :=
  c7_diff_order identityOf entityEqv
    [(some (Value.str "1"), [("id", Value.str "1")])]
    [[("id", Value.str "2")], [("id", Value.str "3")]]

/-! ### Claim C6 -/

/-- C6: idempotent no-op diff. Diffing a snapshot (with its structural
invariant of unique identity keys) against a current collection that matches
it entry by entry — same identity keys, deeply equal values — yields empty
`added`, `modified` and `deleted`. -/
theorem c6_noop_diff {T K : Type} [DecidableEq K] (idOf : T → K)
    (eqv : T → T → Bool) (prev : List (K × T)) (cur : List T)
    (hp : (prev.map Prod.fst).Nodup)
    (hmatch : List.Forall₂ (fun p t => idOf t = p.1 ∧ eqv p.2 t = true) prev cur) :
    diff idOf eqv prev cur = ⟨[], [], []⟩ := by
  have hkeys : cur.map idOf = prev.map Prod.fst :=
    forall2_match_keys idOf eqv prev cur hmatch
  have hnc : (cur.map idOf).Nodup := by
    rw [hkeys]
    exact hp
  have hlook : ∀ t ∈ cur, ∃ p, p ∈ prev ∧ idOf t = p.1 ∧ eqv p.2 t = true :=
    forall2_match_lookup idOf eqv prev cur hmatch
  have hadded : cur.filter (addedPred idOf prev) = [] := by
    apply filter_false_nil
    intro t ht
    obtain ⟨p, hpm, hkt, _⟩ := hlook t ht
    have hs : lookupKey prev (idOf t) = some p.2 := by
      rw [hkt]
      exact lookupKey_of_mem_nodup prev p.1 p.2 hp (by rw [Prod.mk.eta]; exact hpm)
    simp [addedPred, hs]
  have hmodified : cur.filter (modifiedPred idOf eqv prev) = [] := by
    apply filter_false_nil
    intro t ht
    obtain ⟨p, hpm, hkt, heq⟩ := hlook t ht
    have hs : lookupKey prev (idOf t) = some p.2 := by
      rw [hkt]
      exact lookupKey_of_mem_nodup prev p.1 p.2 hp (by rw [Prod.mk.eta]; exact hpm)
    simp [modifiedPred, hs, heq]
  have hdeleted :
      (prev.filter fun p => (lookupKey (buildByKey idOf cur) p.1).isNone) = [] := by
    apply filter_false_nil
    intro p hpm
    have hpk : p.1 ∈ cur.map idOf := by
      rw [hkeys]
      exact List.mem_map_of_mem Prod.fst hpm
    obtain ⟨t, htc, htk⟩ := List.mem_map.mp hpk
    rw [lookupKey_buildByKey_some idOf cur p.1 t hnc htc htk]
    rfl
  have h12 := scanCurrent_eq idOf eqv prev cur
  simp only [diff, h12, hadded, hmodified, hdeleted, List.map_nil]

/-- C6 witness: a two-entity snapshot diffed against the same entities (by
identity and deep value) yields all-empty change sequences. -/
theorem c6_noop_diff_witness :
    ((([(some (Value.str "1"), [("id", Value.str "1"), ("done", Value.bool false)]),
        (some (Value.str "2"), [("id", Value.str "2")])] :
          List (Option Value × Entity)).map Prod.fst).Nodup)
      ∧ diff identityOf entityEqv
          [(some (Value.str "1"), [("id", Value.str "1"), ("done", Value.bool false)]),
           (some (Value.str "2"), [("id", Value.str "2")])]
          [[("id", Value.str "1"), ("done", Value.bool false)],
           [("id", Value.str "2")]] = ⟨[], [], []⟩ := by
  refine ⟨by decide, ?_⟩
  exact c6_noop_diff identityOf entityEqv _ _ (by decide)
    (List.Forall₂.cons ⟨rfl, rfl⟩ (List.Forall₂.cons ⟨rfl, rfl⟩ List.Forall₂.nil))

/-! ### Claim C2 -/

/-- C2: diff completeness and exclusivity. Under the snapshot's structural
invariants (unique identity keys, each stored entity carrying its key) and
distinct identities in `current`: an identity key only in `current` appears
exactly once in `added` and nowhere else; a key only in `previous` appears
exactly once in `deleted` and nowhere else; a key in both with deeply equal
values appears in none of the three sequences; a key in both with unequal
values appears exactly once in `modified` and nowhere else. -/
theorem c2_diff_completeness {T K : Type} [DecidableEq K] (idOf : T → K)
    (eqv : T → T → Bool) (prev : List (K × T)) (cur : List T) (key : K)
    (hp : (prev.map Prod.fst).Nodup)
    (hcons : ∀ p ∈ prev, idOf p.2 = p.1)
    (hc : (cur.map idOf).Nodup) :
    ((key ∈ cur.map idOf ∧ key ∉ prev.map Prod.fst) →
        keyCount idOf key (diff idOf eqv prev cur).added = 1
      ∧ keyCount idOf key (diff idOf eqv prev cur).modified = 0
      ∧ keyCount idOf key (diff idOf eqv prev cur).deleted = 0)
  ∧ ((key ∉ cur.map idOf ∧ key ∈ prev.map Prod.fst) →
        keyCount idOf key (diff idOf eqv prev cur).deleted = 1
      ∧ keyCount idOf key (diff idOf eqv prev cur).added = 0
      ∧ keyCount idOf key (diff idOf eqv prev cur).modified = 0)
  ∧ (∀ (p : T) (t : T), (key, p) ∈ prev → t ∈ cur → idOf t = key →
      eqv p t = true →
        keyCount idOf key (diff idOf eqv prev cur).added = 0
      ∧ keyCount idOf key (diff idOf eqv prev cur).modified = 0
      ∧ keyCount idOf key (diff idOf eqv prev cur).deleted = 0)
  ∧ (∀ (p : T) (t : T), (key, p) ∈ prev → t ∈ cur → idOf t = key →
      eqv p t = false →
        keyCount idOf key (diff idOf eqv prev cur).modified = 1
      ∧ keyCount idOf key (diff idOf eqv prev cur).added = 0
      ∧ keyCount idOf key (diff idOf eqv prev cur).deleted = 0) := by
  have h12 := scanCurrent_eq idOf eqv prev cur
  have hadd : (diff idOf eqv prev cur).added = cur.filter (addedPred idOf prev) := by
    simp [diff, h12]
  have hmod : (diff idOf eqv prev cur).modified =
      cur.filter (modifiedPred idOf eqv prev) := by
    simp [diff, h12]
  have hdel : (diff idOf eqv prev cur).deleted =
      (prev.filter fun p => (lookupKey (buildByKey idOf cur) p.1).isNone).map
        Prod.snd := rfl
  have hdelcount : ∀ q : K × T → Bool,
      keyCount idOf key ((prev.filter q).map Prod.snd) =
        ((prev.filter q).filter fun p => decide (p.1 = key)).length := by
    intro q
    unfold keyCount
    rw [filter_of_map]
    rw [List.length_map]
    congr 1
    apply filter_ext
    intro p hpf
    rw [hcons p (List.mem_of_mem_filter hpf)]
  refine ⟨?_, ?_, ?_, ?_⟩
  · rintro ⟨hkc, hkp⟩
    obtain ⟨t0, ht0, hk0⟩ := List.mem_map.mp hkc
    refine ⟨?_, ?_, ?_⟩
    · rw [hadd]
      unfold keyCount
      rw [length_filter_key_of_mem idOf cur key t0 _ hc ht0 hk0]
      have hpred : addedPred idOf prev t0 = true := by
        simp [addedPred, hk0, lookupKey_eq_none_of_not_mem prev key hkp]
      rw [hpred]
      rfl
    · rw [hmod]
      unfold keyCount
      rw [length_filter_key_of_mem idOf cur key t0 _ hc ht0 hk0]
      have hpred : modifiedPred idOf eqv prev t0 = false := by
        simp [modifiedPred, hk0, lookupKey_eq_none_of_not_mem prev key hkp]
      rw [hpred]
      rfl
    · rw [hdel, hdelcount]
      exact length_filter_key_of_not_mem Prod.fst prev key _ hkp
  · rintro ⟨hkc, hkp⟩
    obtain ⟨p0, hp0, hk0⟩ := List.mem_map.mp hkp
    refine ⟨?_, ?_, ?_⟩
    · rw [hdel, hdelcount]
      rw [length_filter_key_of_mem Prod.fst prev key p0 _ hp hp0 hk0]
      have hpred : (lookupKey (buildByKey idOf cur) p0.1).isNone = true := by
        rw [hk0, lookupKey_buildByKey_none idOf cur key hc hkc]
        rfl
      rw [hpred]
      rfl
    · rw [hadd]
      unfold keyCount
      exact length_filter_key_of_not_mem idOf cur key _ hkc
    · rw [hmod]
      unfold keyCount
      exact length_filter_key_of_not_mem idOf cur key _ hkc
  · intro p t hpmem htmem hkt heq
    have hs : lookupKey prev key = some p :=
      lookupKey_of_mem_nodup prev key p hp hpmem
    refine ⟨?_, ?_, ?_⟩
    · rw [hadd]
      unfold keyCount
      rw [length_filter_key_of_mem idOf cur key t _ hc htmem hkt]
      have hpred : addedPred idOf prev t = false := by
        simp [addedPred, hkt, hs]
      rw [hpred]
      rfl
    · rw [hmod]
      unfold keyCount
      rw [length_filter_key_of_mem idOf cur key t _ hc htmem hkt]
      have hpred : modifiedPred idOf eqv prev t = false := by
        simp [modifiedPred, hkt, hs, heq]
      rw [hpred]
      rfl
    · rw [hdel, hdelcount]
      rw [length_filter_key_of_mem Prod.fst prev key (key, p) _ hp hpmem rfl]
      have hpred : (lookupKey (buildByKey idOf cur) (key, p).1).isNone = false := by
        rw [lookupKey_buildByKey_some idOf cur (key, p).1 t hc htmem hkt]
        rfl
      rw [hpred]
      rfl
  · intro p t hpmem htmem hkt heq
    have hs : lookupKey prev key = some p :=
      lookupKey_of_mem_nodup prev key p hp hpmem
    refine ⟨?_, ?_, ?_⟩
    · rw [hmod]
      unfold keyCount
      rw [length_filter_key_of_mem idOf cur key t _ hc htmem hkt]
      have hpred : modifiedPred idOf eqv prev t = true := by
        simp [modifiedPred, hkt, hs, heq]
      rw [hpred]
      rfl
    · rw [hadd]
      unfold keyCount
      rw [length_filter_key_of_mem idOf cur key t _ hc htmem hkt]
      have hpred : addedPred idOf prev t = false := by
        simp [addedPred, hkt, hs]
      rw [hpred]
      rfl
    · rw [hdel, hdelcount]
      rw [length_filter_key_of_mem Prod.fst prev key (key, p) _ hp hpmem rfl]
      have hpred : (lookupKey (buildByKey idOf cur) (key, p).1).isNone = false := by
        rw [lookupKey_buildByKey_some idOf cur (key, p).1 t hc htmem hkt]
        rfl
      rw [hpred]
      rfl

/-- C2 witness: the completeness theorem applied to the §8 example flow —
entity `1` modified (its `done` flag flipped) appears exactly once in
`modified` and nowhere else. -/
theorem c2_diff_completeness_witness :
    ((([(some (Value.str "1"), [("id", Value.str "1"), ("done", Value.bool false)])] :
        List (Option Value × Entity)).map Prod.fst).Nodup)
      ∧ entityEqv [("id", Value.str "1"), ("done", Value.bool false)]
          [("id", Value.str "1"), ("done", Value.bool true)] = false
      ∧ (keyCount identityOf (some (Value.str "1"))
          (diff identityOf entityEqv
            [(some (Value.str "1"), [("id", Value.str "1"), ("done", Value.bool false)])]
            [[("id", Value.str "1"), ("done", Value.bool true)]]).modified = 1
        ∧ keyCount identityOf (some (Value.str "1"))
            (diff identityOf entityEqv
              [(some (Value.str "1"), [("id", Value.str "1"), ("done", Value.bool false)])]
              [[("id", Value.str "1"), ("done", Value.bool true)]]).added = 0
        ∧ keyCount identityOf (some (Value.str "1"))
            (diff identityOf entityEqv
              [(some (Value.str "1"), [("id", Value.str "1"), ("done", Value.bool false)])]
              [[("id", Value.str "1"), ("done", Value.bool true)]]).deleted = 0) := by
  refine ⟨by decide, by decide, ?_⟩
  exact (c2_diff_completeness identityOf entityEqv
      [(some (Value.str "1"), [("id", Value.str "1"), ("done", Value.bool false)])]
      [[("id", Value.str "1"), ("done", Value.bool true)]]
      (some (Value.str "1"))
      (by decide) (by decide) (by decide)).2.2.2
    [("id", Value.str "1"), ("done", Value.bool false)]
    [("id", Value.str "1"), ("done", Value.bool true)]
    (by decide) (by decide) (by decide) (by decide)

/-! ### Round-trip lemmas -/

theorem fwdEntries_key_mem (m : Mapping) (e : Entity) :
    ∀ x ∈ fwdEntries m e, x.1 ∈ m.map (fun p => p.2.«to») := by
  intro x hx
  obtain ⟨p, hp, hf⟩ := List.mem_filterMap.mp hx
  cases hl : lookupKey e p.1 with
  | none =>
    rw [hl] at hf
    exact Option.noConfusion hf
  | some v =>
    rw [hl] at hf
    have hf2 : Option.map (fun rv => (p.2.«to», rv)) (coerceForward p.2.type v) =
        some x := hf
    cases hc : coerceForward p.2.type v with
    | none =>
      rw [hc] at hf2
      exact Option.noConfusion hf2
    | some rv =>
      rw [hc] at hf2
      have hf3 : some (p.2.«to», rv) = some x := hf2
      injection hf3 with hf4
      rw [← hf4]
      exact List.mem_map_of_mem _ hp

theorem bwdEntries_key_mem (m : Mapping) (r : Resource) :
    ∀ x ∈ bwdEntries m r, x.1 ∈ m.map Prod.fst := by
  intro x hx
  obtain ⟨p, hp, hf⟩ := List.mem_filterMap.mp hx
  cases hl : lookupKey r p.2.«to» with
  | none =>
    rw [hl] at hf
    exact Option.noConfusion hf
  | some rv =>
    rw [hl] at hf
    have hf2 : Option.map (fun v => (p.1, v)) (coerceBackward p.2.type rv) =
        some x := hf
    cases hc : coerceBackward p.2.type rv with
    | none =>
      rw [hc] at hf2
      exact Option.noConfusion hf2
    | some v =>
      rw [hc] at hf2
      have hf3 : some (p.1, v) = some x := hf2
      injection hf3 with hf4
      rw [← hf4]
      exact List.mem_map_of_mem _ hp

theorem lookupKey_fwdEntries (m : Mapping) (e : Entity) (k : String)
    (pm : PropertyMapping) (ht : (m.map fun p => p.2.«to»).Nodup)
    (hmem : (k, pm) ∈ m) :
    lookupKey (fwdEntries m e) pm.«to» =
      (lookupKey e k).bind (coerceForward pm.type) := by
  induction m with
  | nil => cases hmem
  | cons q rest ih =>
    obtain ⟨kB, pmB⟩ := q
    rw [List.map_cons, List.nodup_cons] at ht
    rcases List.mem_cons.mp hmem with h | h
    · injection h with h1 h2
      subst h1
      subst h2
      have hto : pm.«to» ∉ (fwdEntries rest e).map (fun x => x.1) := by
        intro hmm
        obtain ⟨x, hxm, hxk⟩ := List.mem_map.mp hmm
        exact ht.1 (hxk ▸ fwdEntries_key_mem rest e x hxm)
      cases hl : lookupKey e k with
      | some v =>
        cases hc : coerceForward pm.type v with
        | some rv =>
          have hfe : fwdEntries ((k, pm) :: rest) e =
              (pm.«to», rv) :: fwdEntries rest e := by
            simp [fwdEntries, List.filterMap_cons, hl, hc]
          rw [hfe]
          have hgoal : lookupKey ((pm.«to», rv) :: fwdEntries rest e) pm.«to» =
              some rv := by
            simp [lookupKey]
          rw [hgoal]
          show some rv = coerceForward pm.type v
          rw [hc]
        | none =>
          have hfe : fwdEntries ((k, pm) :: rest) e = fwdEntries rest e := by
            simp [fwdEntries, List.filterMap_cons, hl, hc]
          rw [hfe, lookupKey_eq_none_of_not_mem (fwdEntries rest e) pm.«to» hto]
          show (none : Option Value) = coerceForward pm.type v
          rw [hc]
      | none =>
        have hfe : fwdEntries ((k, pm) :: rest) e = fwdEntries rest e := by
          simp [fwdEntries, List.filterMap_cons, hl]
        rw [hfe, lookupKey_eq_none_of_not_mem (fwdEntries rest e) pm.«to» hto]
        rfl
    · have hne : pmB.«to» ≠ pm.«to» := by
        intro heq
        apply ht.1
        rw [heq]
        exact List.mem_map_of_mem (fun p => p.2.«to») h
      cases hlB : lookupKey e kB with
      | some vB =>
        cases hcB : coerceForward pmB.type vB with
        | some rvB =>
          have hfe : fwdEntries ((kB, pmB) :: rest) e =
              (pmB.«to», rvB) :: fwdEntries rest e := by
            simp [fwdEntries, List.filterMap_cons, hlB, hcB]
          rw [hfe]
          simp only [lookupKey, if_neg hne]
          exact ih ht.2 h
        | none =>
          have hfe : fwdEntries ((kB, pmB) :: rest) e = fwdEntries rest e := by
            simp [fwdEntries, List.filterMap_cons, hlB, hcB]
          rw [hfe]
          exact ih ht.2 h
      | none =>
        have hfe : fwdEntries ((kB, pmB) :: rest) e = fwdEntries rest e := by
          simp [fwdEntries, List.filterMap_cons, hlB]
        rw [hfe]
        exact ih ht.2 h

theorem lookupKey_bwdEntries (m : Mapping) (r : Resource) (k : String)
    (pm : PropertyMapping) (hm : (m.map Prod.fst).Nodup)
    (hmem : (k, pm) ∈ m) :
    lookupKey (bwdEntries m r) k =
      (lookupKey r pm.«to»).bind (coerceBackward pm.type) := by
  induction m with
  | nil => cases hmem
  | cons q rest ih =>
    obtain ⟨kB, pmB⟩ := q
    rw [List.map_cons, List.nodup_cons] at hm
    rcases List.mem_cons.mp hmem with h | h
    · injection h with h1 h2
      subst h1
      subst h2
      have hto : k ∉ (bwdEntries rest r).map (fun x => x.1) := by
        intro hmm
        obtain ⟨x, hxm, hxk⟩ := List.mem_map.mp hmm
        exact hm.1 (hxk ▸ bwdEntries_key_mem rest r x hxm)
      cases hl : lookupKey r pm.«to» with
      | some rv =>
        cases hc : coerceBackward pm.type rv with
        | some v =>
          have hfe : bwdEntries ((k, pm) :: rest) r = (k, v) :: bwdEntries rest r := by
            simp [bwdEntries, List.filterMap_cons, hl, hc]
          rw [hfe]
          have hgoal : lookupKey ((k, v) :: bwdEntries rest r) k = some v := by
            simp [lookupKey]
          rw [hgoal]
          show some v = coerceBackward pm.type rv
          rw [hc]
        | none =>
          have hfe : bwdEntries ((k, pm) :: rest) r = bwdEntries rest r := by
            simp [bwdEntries, List.filterMap_cons, hl, hc]
          rw [hfe, lookupKey_eq_none_of_not_mem (bwdEntries rest r) k hto]
          show (none : Option Value) = coerceBackward pm.type rv
          rw [hc]
      | none =>
        have hfe : bwdEntries ((k, pm) :: rest) r = bwdEntries rest r := by
          simp [bwdEntries, List.filterMap_cons, hl]
        rw [hfe, lookupKey_eq_none_of_not_mem (bwdEntries rest r) k hto]
        rfl
    · have hne : kB ≠ k := by
        intro heq
        apply hm.1
        have h2 : (k, pm).1 ∈ List.map Prod.fst rest := List.mem_map_of_mem Prod.fst h
        rw [heq]
        exact h2
      cases hlB : lookupKey r pmB.«to» with
      | some rvB =>
        cases hcB : coerceBackward pmB.type rvB with
        | some vB =>
          have hfe : bwdEntries ((kB, pmB) :: rest) r =
              (kB, vB) :: bwdEntries rest r := by
            simp [bwdEntries, List.filterMap_cons, hlB, hcB]
          rw [hfe]
          simp only [lookupKey, if_neg hne]
          exact ih hm.2 h
        | none =>
          have hfe : bwdEntries ((kB, pmB) :: rest) r = bwdEntries rest r := by
            simp [bwdEntries, List.filterMap_cons, hlB, hcB]
          rw [hfe]
          exact ih hm.2 h
      | none =>
        have hfe : bwdEntries ((kB, pmB) :: rest) r = bwdEntries rest r := by
          simp [bwdEntries, List.filterMap_cons, hlB]
        rw [hfe]
        exact ih hm.2 h

theorem toResourceAux_eq_fwd (e : Entity) (m : Mapping) :
    ∀ acc : Resource, wellTyped m e = true →
      (m.map fun p => p.2.«to»).Nodup →
      (∀ p ∈ m, p.2.«to» ∉ acc.map Prod.fst) →
      toResourceAux e m acc = .ok (acc ++ fwdEntries m e) := by
  induction m with
  | nil =>
    intro acc _ _ _
    simp [toResourceAux, fwdEntries]
  | cons q rest ih =>
    intro acc hwt ht hdis
    obtain ⟨k, pm⟩ := q
    rw [List.map_cons, List.nodup_cons] at ht
    rw [wellTyped, List.all_cons, Bool.and_eq_true] at hwt
    obtain ⟨hcf, hwtr⟩ := hwt
    cases hl : lookupKey e k with
    | some v =>
      have hma : typeMatches pm.type v = true := by
        simpa [cleanField, hl] using hcf
      obtain ⟨rv, hc, _⟩ := coerce_round pm.type v hma
      rw [toResourceAux_cons_ok e k pm rest acc v rv hl hc]
      rw [setKey_eq_append acc pm.«to» rv (hdis (k, pm) (List.mem_cons_self _ _))]
      rw [ih (acc ++ [(pm.«to», rv)]) hwtr ht.2 ?_]
      · have hfe : fwdEntries ((k, pm) :: rest) e =
            (pm.«to», rv) :: fwdEntries rest e := by
          simp [fwdEntries, List.filterMap_cons, hl, hc]
        rw [hfe, List.append_assoc, List.singleton_append]
      · intro p hp
        rw [List.map_append, List.mem_append, not_or]
        refine ⟨hdis p (List.mem_cons_of_mem _ hp), ?_⟩
        intro hmm
        have h1 : p.2.«to» = pm.«to» := by simpa using hmm
        exact ht.1 (h1 ▸ List.mem_map_of_mem (fun p => p.2.«to») hp)
    | none =>
      have ho : pm.optional = some true := by
        simpa [cleanField, hl] using hcf
      rw [toResourceAux_cons_opt e k pm rest acc hl ho]
      rw [ih acc hwtr ht.2 (fun p hp => hdis p (List.mem_cons_of_mem _ hp))]
      have hfe : fwdEntries ((k, pm) :: rest) e = fwdEntries rest e := by
        simp [fwdEntries, List.filterMap_cons, hl]
      rw [hfe]

theorem toResource_eq_fwd (m : Mapping) (e : Entity)
    (hwt : wellTyped m e = true) (ht : (m.map fun p => p.2.«to»).Nodup) :
    toResource m e = .ok (fwdEntries m e) := by
  have h := toResourceAux_eq_fwd e m [] hwt ht (by intro p _; simp)
  rw [List.nil_append] at h
  exact h

theorem fromResourceAux_eq_bwd (r : Resource) (m : Mapping) :
    ∀ acc : Entity, (∀ p ∈ m, cleanFieldBwd r p = true) →
      (m.map Prod.fst).Nodup →
      (∀ p ∈ m, p.1 ∉ acc.map Prod.fst) →
      fromResourceAux r m acc = .ok (acc ++ bwdEntries m r) := by
  induction m with
  | nil =>
    intro acc _ _ _
    simp [fromResourceAux, bwdEntries]
  | cons q rest ih =>
    intro acc hcln hm hdis
    obtain ⟨k, pm⟩ := q
    rw [List.map_cons, List.nodup_cons] at hm
    have hcf : cleanFieldBwd r (k, pm) = true := hcln (k, pm) (List.mem_cons_self _ _)
    have hclnr : ∀ p ∈ rest, cleanFieldBwd r p = true :=
      fun p hp => hcln p (List.mem_cons_of_mem _ hp)
    cases hl : lookupKey r pm.«to» with
    | some rv =>
      have hsome : (coerceBackward pm.type rv).isSome = true := by
        simpa [cleanFieldBwd, hl] using hcf
      cases hc : coerceBackward pm.type rv with
      | none =>
        rw [hc] at hsome
        cases hsome
      | some v =>
        rw [fromResourceAux_cons_ok r k pm rest acc rv v hl hc]
        rw [setKey_eq_append acc k v (hdis (k, pm) (List.mem_cons_self _ _))]
        rw [ih (acc ++ [(k, v)]) hclnr hm.2 ?_]
        · have hfe : bwdEntries ((k, pm) :: rest) r = (k, v) :: bwdEntries rest r := by
            simp [bwdEntries, List.filterMap_cons, hl, hc]
          rw [hfe, List.append_assoc, List.singleton_append]
        · intro p hp
          rw [List.map_append, List.mem_append, not_or]
          refine ⟨hdis p (List.mem_cons_of_mem _ hp), ?_⟩
          intro hmm
          have h1 : p.1 = k := by simpa using hmm
          apply hm.1
          have h2 : p.1 ∈ List.map Prod.fst rest := List.mem_map_of_mem Prod.fst hp
          rw [← h1]
          exact h2
    | none =>
      have ho : pm.optional = some true := by
        simpa [cleanFieldBwd, hl] using hcf
      rw [fromResourceAux_cons_opt r k pm rest acc hl ho]
      rw [ih acc hclnr hm.2 (fun p hp => hdis p (List.mem_cons_of_mem _ hp))]
      have hfe : bwdEntries ((k, pm) :: rest) r = bwdEntries rest r := by
        simp [bwdEntries, List.filterMap_cons, hl]
      rw [hfe]

theorem fromResource_eq_bwd (m : Mapping) (r : Resource)
    (hcln : ∀ p ∈ m, cleanFieldBwd r p = true)
    (hm : (m.map Prod.fst).Nodup) :
    fromResource m r = .ok (bwdEntries m r) := by
  have h := fromResourceAux_eq_bwd r m [] hcln hm (by intro p _; simp)
  rw [List.nil_append] at h
  exact h

/-! ### Claim C1 -/

/-- C1 counterexample: the round-trip fails when two mapped fields alias the
same `to` resource key (the spec's §3 backend-defined aliasing case). With
mapping `a -> \x7bto: "x", string\x7d, b -> \x7bto: "x", string\x7d` and the
well-typed entity `\x7ba: "1", b: "2"\x7d`, the later field's write wins in
the resource, and `fromResource` reads `"2"` back into both fields, so the
recovered entity is not equal to the original. -/
theorem c1_round_trip_counterexample :
    wellTyped
        [("a", PropertyMapping.mk "x" .string none),
         ("b", PropertyMapping.mk "x" .string none)]
        [("a", Value.str "1"), ("b", Value.str "2")] = true
      ∧ toResource
          [("a", PropertyMapping.mk "x" .string none),
           ("b", PropertyMapping.mk "x" .string none)]
          [("a", Value.str "1"), ("b", Value.str "2")] =
        .ok [("x", Value.str "2")]
      ∧ fromResource
          [("a", PropertyMapping.mk "x" .string none),
           ("b", PropertyMapping.mk "x" .string none)]
          [("x", Value.str "2")] =
        .ok [("a", Value.str "2"), ("b", Value.str "2")]
      ∧ entityEqv [("a", Value.str "2"), ("b", Value.str "2")]
          [("a", Value.str "1"), ("b", Value.str "2")] = false := by
  refine ⟨rfl, rfl, rfl, rfl⟩

/-- C1 (amended): lossless round-trip under the spec's default 1:1 field
correspondence (§3). For every mapping with distinct field keys and pairwise
distinct `to` targets, and every entity all of whose fields are covered by
the mapping and satisfy their declared types (required fields present),
`toResource` succeeds, `fromResource` of the result succeeds, and the
recovered entity is deeply (field-by-field) equal to the original. Without
the distinct-`to` condition the claim fails (see the counterexample). -/
theorem c1_round_trip (m : Mapping) (e : Entity)
    (hm : (m.map Prod.fst).Nodup)
    (ht : (m.map fun p => p.2.«to»).Nodup)
    (he : ∀ k ∈ e.map Prod.fst, k ∈ m.map Prod.fst)
    (hwt : wellTyped m e = true) :
    ∃ r e2, toResource m e = .ok r ∧ fromResource m r = .ok e2
      ∧ entityEqv e2 e = true := by
  have hall : ∀ p ∈ m, cleanField e p = true := by
    rw [wellTyped, List.all_eq_true] at hwt
    intro p hp
    exact hwt p hp
  refine ⟨fwdEntries m e, bwdEntries m (fwdEntries m e),
    toResource_eq_fwd m e hwt ht, ?_, ?_⟩
  · apply fromResource_eq_bwd m (fwdEntries m e) ?_ hm
    intro p hp
    have hlf := lookupKey_fwdEntries m e p.1 p.2 ht (by rw [Prod.mk.eta]; exact hp)
    cases hl : lookupKey e p.1 with
    | some v =>
      have hma : typeMatches p.2.type v = true := by
        simpa [cleanField, hl] using hall p hp
      obtain ⟨rv, hc, hb⟩ := coerce_round p.2.type v hma
      have hr1 : lookupKey (fwdEntries m e) p.2.«to» = coerceForward p.2.type v := by
        rw [hl] at hlf
        exact hlf
      rw [hc] at hr1
      simp [cleanFieldBwd, hr1, hb]
    | none =>
      have hr1 : lookupKey (fwdEntries m e) p.2.«to» = none := by
        rw [hl] at hlf
        exact hlf
      have ho : p.2.optional = some true := by
        simpa [cleanField, hl] using hall p hp
      simp [cleanFieldBwd, hr1, ho]
  · have hmain : ∀ key ∈ m.map Prod.fst,
        lookupKey (bwdEntries m (fwdEntries m e)) key = lookupKey e key := by
      intro key hkey
      obtain ⟨p, hp, hpk⟩ := List.mem_map.mp hkey
      have hlb := lookupKey_bwdEntries m (fwdEntries m e) p.1 p.2 hm
        (by rw [Prod.mk.eta]; exact hp)
      have hlf := lookupKey_fwdEntries m e p.1 p.2 ht (by rw [Prod.mk.eta]; exact hp)
      rw [← hpk]
      cases hl : lookupKey e p.1 with
      | some v =>
        have hma : typeMatches p.2.type v = true := by
          simpa [cleanField, hl] using hall p hp
        obtain ⟨rv, hc, hb⟩ := coerce_round p.2.type v hma
        have hr1 : lookupKey (fwdEntries m e) p.2.«to» = coerceForward p.2.type v := by
          rw [hl] at hlf
          exact hlf
        rw [hc] at hr1
        have hr2 : lookupKey (bwdEntries m (fwdEntries m e)) p.1 =
            coerceBackward p.2.type rv := by
          rw [hr1] at hlb
          exact hlb
        rw [hr2, hb]
      | none =>
        have hr1 : lookupKey (fwdEntries m e) p.2.«to» = none := by
          rw [hl] at hlf
          exact hlf
        have hr2 : lookupKey (bwdEntries m (fwdEntries m e)) p.1 = none := by
          rw [hr1] at hlb
          exact hlb
        rw [hr2]
    apply List.all_eq_true.mpr
    intro key hkey
    rcases List.mem_append.mp hkey with hk | hk
    · obtain ⟨x, hx, hxk⟩ := List.mem_map.mp hk
      have hxm : x.1 ∈ m.map Prod.fst :=
        bwdEntries_key_mem m (fwdEntries m e) x hx
      rw [hxk] at hxm
      exact decide_eq_true (hmain key hxm)
    · exact decide_eq_true (hmain key (he key hk))

/-- C1 witness: the round-trip theorem at the spec's §8 example mapping and
entity (optional `id` absent). -/
theorem c1_round_trip_witness :
    (([("id", PropertyMapping.mk "id" .string (some true)),
       ("title", PropertyMapping.mk "summary" .string none),
       ("done", PropertyMapping.mk "status" .boolean none)] : Mapping).map
        Prod.fst).Nodup
      ∧ wellTyped
          [("id", PropertyMapping.mk "id" .string (some true)),
           ("title", PropertyMapping.mk "summary" .string none),
           ("done", PropertyMapping.mk "status" .boolean none)]
          [("title", Value.str "Buy milk"), ("done", Value.bool false)] = true
      ∧ (∃ r e2,
          toResource
            [("id", PropertyMapping.mk "id" .string (some true)),
             ("title", PropertyMapping.mk "summary" .string none),
             ("done", PropertyMapping.mk "status" .boolean none)]
            [("title", Value.str "Buy milk"), ("done", Value.bool false)] = .ok r
          ∧ fromResource
              [("id", PropertyMapping.mk "id" .string (some true)),
               ("title", PropertyMapping.mk "summary" .string none),
               ("done", PropertyMapping.mk "status" .boolean none)] r = .ok e2
          ∧ entityEqv e2
              [("title", Value.str "Buy milk"), ("done", Value.bool false)] = true) := by
  refine ⟨by decide, by decide, ?_⟩
  exact c1_round_trip
    [("id", PropertyMapping.mk "id" .string (some true)),
     ("title", PropertyMapping.mk "summary" .string none),
     ("done", PropertyMapping.mk "status" .boolean none)]
    [("title", Value.str "Buy milk"), ("done", Value.bool false)]
    (by decide) (by decide) (by decide) (by decide)

/-! ### Claim C4 -/

/-- C4 counterexample: when an earlier field in mapping order fails coercion,
the whole call aborts with that first failure (§4.1 failure policy), so the
error kind is not `missing-required-field` even though a required field is
absent. With mapping `a -> number, b -> string (required)` and entity
`\x7ba: "x"\x7d` (`b` absent and required), `toResource` fails with
`coercion-failure` on `a`, so the claim's guaranteed error kind is false as
stated. -/
theorem c4_missing_required_counterexample :
    ("b", PropertyMapping.mk "b" .string none) ∈
        [("a", PropertyMapping.mk "a" .number none),
         ("b", PropertyMapping.mk "b" .string none)]
      ∧ lookupKey [("a", Value.str "x")] "b" = none
      ∧ (PropertyMapping.mk "b" .string none).optional ≠ some true
      ∧ toResource
          [("a", PropertyMapping.mk "a" .number none),
           ("b", PropertyMapping.mk "b" .string none)]
          [("a", Value.str "x")] = .error (.coercionFailure "a" .forward)
      ∧ failedMissingRequired
          (toResource
            [("a", PropertyMapping.mk "a" .number none),
             ("b", PropertyMapping.mk "b" .string none)]
            [("a", Value.str "x")]) = false := by
  refine ⟨by decide, rfl, by decide, rfl, rfl⟩

/-- C4 (amended): a mapped entity field that is absent with `optional` false
or unset always makes `toResource` fail with a `MappingError`; the error is
`missing-required-field` for that field whenever every field before it in
mapping order is clean (when an earlier field fails first, that first
failure's kind wins, as in the counterexample); and a `MappingError` from the
mapping engine during a repository `update` is surfaced unchanged to the
caller: no backend adapter call, no retry, no Snapshot mutation, no event. -/
theorem c4_missing_required_field :
    (∀ (m : Mapping) (e : Entity) (k : String) (pm : PropertyMapping),
        (k, pm) ∈ m → lookupKey e k = none → pm.optional ≠ some true →
        ∃ err, toResource m e = .error err)
  ∧ (∀ (m1 m2 : Mapping) (e : Entity) (k : String) (pm : PropertyMapping),
        (∀ p ∈ m1, cleanField e p = true) → lookupKey e k = none →
        pm.optional ≠ some true →
        toResource (m1 ++ (k, pm) :: m2) e =
          .error (.missingRequiredField k .forward))
  ∧ (∀ (m : Mapping) (st : RepoState) (e : Entity) (idv : Value) (err : MappingError),
        identityOf e = some idv → toResource m e = .error err →
        (Repo.update m st e).result = .error (.mappingError err)
        ∧ (Repo.update m st e).calls = []
        ∧ (Repo.update m st e).state = st
        ∧ (Repo.update m st e).events = []) := by
  refine ⟨?_, ?_, ?_⟩
  · intro m e k pm hmem habs hreq
    have hbad : cleanField e (k, pm) = false := by
      simp [cleanField, habs, hreq]
    exact toResourceAux_error_of_not_clean e m (k, pm) hmem hbad []
  · intro m1 m2 e k pm hclean habs hreq
    exact toResourceAux_first_missing e m1 m2 k pm hclean habs hreq []
  · intro m st e idv err hid herr
    simp [Repo.update, hid, herr]

/-- C4 witness: the forward mapping of the §8 example entity with `title`
absent fails with `missing-required-field` on `title`, and the error is
surfaced unchanged through `Repo.update`. -/
theorem c4_missing_required_field_witness :
    (∃ err, toResource
        [("id", PropertyMapping.mk "id" .string (some true)),
         ("title", PropertyMapping.mk "summary" .string none)]
        [("id", Value.str "1")] = .error err)
  ∧ toResource
      ([("id", PropertyMapping.mk "id" .string (some true))] ++
        ("title", PropertyMapping.mk "summary" .string none) :: [])
      [("id", Value.str "1")] =
      .error (.missingRequiredField "title" .forward)
  ∧ ((Repo.update
        [("id", PropertyMapping.mk "id" .string (some true)),
         ("title", PropertyMapping.mk "summary" .string none)]
        (RepoState.mk [] [])
        [("id", Value.str "1")]).result =
      .error (.mappingError (.missingRequiredField "title" .forward))
    ∧ (Repo.update
        [("id", PropertyMapping.mk "id" .string (some true)),
         ("title", PropertyMapping.mk "summary" .string none)]
        (RepoState.mk [] [])
        [("id", Value.str "1")]).calls = []
    ∧ (Repo.update
        [("id", PropertyMapping.mk "id" .string (some true)),
         ("title", PropertyMapping.mk "summary" .string none)]
        (RepoState.mk [] [])
        [("id", Value.str "1")]).state = RepoState.mk [] []
    ∧ (Repo.update
        [("id", PropertyMapping.mk "id" .string (some true)),
         ("title", PropertyMapping.mk "summary" .string none)]
        (RepoState.mk [] [])
        [("id", Value.str "1")]).events = []) := by
  refine ⟨?_, ?_, ?_⟩
  · exact c4_missing_required_field.1
      [("id", PropertyMapping.mk "id" .string (some true)),
       ("title", PropertyMapping.mk "summary" .string none)]
      [("id", Value.str "1")]
      "title" (PropertyMapping.mk "summary" .string none)
      (by decide) rfl (by decide)
  · exact c4_missing_required_field.2.1
      [("id", PropertyMapping.mk "id" .string (some true))] []
      [("id", Value.str "1")]
      "title" (PropertyMapping.mk "summary" .string none)
      (by decide) rfl (by decide)
  · exact c4_missing_required_field.2.2
      [("id", PropertyMapping.mk "id" .string (some true)),
       ("title", PropertyMapping.mk "summary" .string none)]
      (RepoState.mk [] [])
      [("id", Value.str "1")]
      (Value.str "1") (.missingRequiredField "title" .forward)
      rfl rfl

/-! ### Claim C5 -/

/-- C5: coercion failure is atomic. A single failing field makes the whole
`toResource`/`fromResource` call return an error and no partial resource or
entity (the mapping calls return either one complete value or one error, by
construction of their result type); and when the failing field is the first
problematic one in mapping order, the reported error is `coercion-failure`
naming exactly that field and the failing direction. -/
theorem c5_coercion_atomic :
    (∀ (m : Mapping) (e : Entity) (k : String) (pm : PropertyMapping) (v : Value),
        (k, pm) ∈ m → lookupKey e k = some v → coerceForward pm.type v = none →
        ∃ err, toResource m e = .error err)
  ∧ (∀ (m : Mapping) (r : Resource) (k : String) (pm : PropertyMapping) (rv : Value),
        (k, pm) ∈ m → lookupKey r pm.«to» = some rv →
        coerceBackward pm.type rv = none →
        ∃ err, fromResource m r = .error err)
  ∧ (∀ (m1 m2 : Mapping) (e : Entity) (k : String) (pm : PropertyMapping) (v : Value),
        (∀ p ∈ m1, cleanField e p = true) → lookupKey e k = some v →
        coerceForward pm.type v = none →
        toResource (m1 ++ (k, pm) :: m2) e = .error (.coercionFailure k .forward))
  ∧ (∀ (m1 m2 : Mapping) (r : Resource) (k : String) (pm : PropertyMapping) (rv : Value),
        (∀ p ∈ m1, cleanFieldBwd r p = true) → lookupKey r pm.«to» = some rv →
        coerceBackward pm.type rv = none →
        fromResource (m1 ++ (k, pm) :: m2) r =
          .error (.coercionFailure k .backward)) := by
  refine ⟨?_, ?_, ?_, ?_⟩
  · intro m e k pm v hmem hl hbad
    have hma : typeMatches pm.type v = false := by
      rw [← coerceForward_isSome, hbad]
      rfl
    have hc : cleanField e (k, pm) = false := by
      simp [cleanField, hl, hma]
    exact toResourceAux_error_of_not_clean e m (k, pm) hmem hc []
  · intro m r k pm rv hmem hl hbad
    have hc : cleanFieldBwd r (k, pm) = false := by
      simp [cleanFieldBwd, hl, hbad]
    exact fromResourceAux_error_of_not_clean r m (k, pm) hmem hc []
  · intro m1 m2 e k pm v hclean hl hbad
    exact toResourceAux_first_coercion e m1 m2 k pm v hclean hl hbad []
  · intro m1 m2 r k pm rv hclean hl hbad
    exact fromResourceAux_first_coercion r m1 m2 k pm rv hclean hl hbad []

/-- C5 witness: a `number` field holding non-numeric text fails the whole
forward call, and a `number` resource key holding a boolean fails the whole
backward call, in both cases with `coercion-failure` naming the field and
direction. -/
theorem c5_coercion_atomic_witness :
    (∃ err, toResource [("a", PropertyMapping.mk "a" .number none)]
        [("a", Value.str "x")] = .error err)
  ∧ (∃ err, fromResource [("a", PropertyMapping.mk "a" .number none)]
        [("a", Value.bool true)] = .error err)
  ∧ toResource ([] ++ ("a", PropertyMapping.mk "a" .number none) :: [])
      [("a", Value.str "x")] = .error (.coercionFailure "a" .forward)
  ∧ fromResource ([] ++ ("a", PropertyMapping.mk "a" .number none) :: [])
      [("a", Value.bool true)] = .error (.coercionFailure "a" .backward) := by
  refine ⟨?_, ?_, ?_, ?_⟩
  · exact c5_coercion_atomic.1 [("a", PropertyMapping.mk "a" .number none)]
      [("a", Value.str "x")] "a" (PropertyMapping.mk "a" .number none)
      (Value.str "x") (by decide) rfl rfl
  · exact c5_coercion_atomic.2.1 [("a", PropertyMapping.mk "a" .number none)]
      [("a", Value.bool true)] "a" (PropertyMapping.mk "a" .number none)
      (Value.bool true) (by decide) rfl rfl
  · exact c5_coercion_atomic.2.2.1 [] [] [("a", Value.str "x")] "a"
      (PropertyMapping.mk "a" .number none) (Value.str "x")
      (by decide) rfl rfl
  · exact c5_coercion_atomic.2.2.2 [] [] [("a", Value.bool true)] "a"
      (PropertyMapping.mk "a" .number none) (Value.bool true)
      (by decide) rfl rfl

/-! ### Claim C8 -/

/-- C8: `update` and `remove` on an entity lacking an assigned identity fail
with `MissingIdentityError`, surfaced immediately: no backend adapter call is
made, the repository state (in particular its Snapshot) is unchanged, and no
`changes` event is emitted. -/
theorem c8_missing_identity (m : Mapping) (st : RepoState) (e : Entity)
    (h : identityOf e = none) :
    (Repo.update m st e).result = .error .missingIdentityError
  ∧ (Repo.update m st e).calls = []
  ∧ (Repo.update m st e).state = st
  ∧ (Repo.update m st e).events = []
  ∧ (Repo.remove m st e).result = .error .missingIdentityError
  ∧ (Repo.remove m st e).calls = []
  ∧ (Repo.remove m st e).state = st
  ∧ (Repo.remove m st e).events = [] := by
  simp [Repo.update, Repo.remove, h]

/-- C8 witness: updating or removing the id-less §8 example entity in a
nonempty repository state fails with `MissingIdentityError` and changes
nothing. -/
theorem c8_missing_identity_witness :
    (Repo.update [("title", PropertyMapping.mk "summary" .string none)]
        (RepoState.mk [(some (Value.str "1"), [("id", Value.str "1")])]
          [[("id", Value.str "1")]])
        [("title", Value.str "Buy milk")]).result =
      .error .missingIdentityError
  ∧ (Repo.update [("title", PropertyMapping.mk "summary" .string none)]
        (RepoState.mk [(some (Value.str "1"), [("id", Value.str "1")])]
          [[("id", Value.str "1")]])
        [("title", Value.str "Buy milk")]).calls = []
  ∧ (Repo.update [("title", PropertyMapping.mk "summary" .string none)]
        (RepoState.mk [(some (Value.str "1"), [("id", Value.str "1")])]
          [[("id", Value.str "1")]])
        [("title", Value.str "Buy milk")]).state =
      RepoState.mk [(some (Value.str "1"), [("id", Value.str "1")])]
        [[("id", Value.str "1")]]
  ∧ (Repo.update [("title", PropertyMapping.mk "summary" .string none)]
        (RepoState.mk [(some (Value.str "1"), [("id", Value.str "1")])]
          [[("id", Value.str "1")]])
        [("title", Value.str "Buy milk")]).events = []
  ∧ (Repo.remove [("title", PropertyMapping.mk "summary" .string none)]
        (RepoState.mk [(some (Value.str "1"), [("id", Value.str "1")])]
          [[("id", Value.str "1")]])
        [("title", Value.str "Buy milk")]).result =
      .error .missingIdentityError
  ∧ (Repo.remove [("title", PropertyMapping.mk "summary" .string none)]
        (RepoState.mk [(some (Value.str "1"), [("id", Value.str "1")])]
          [[("id", Value.str "1")]])
        [("title", Value.str "Buy milk")]).calls = []
  ∧ (Repo.remove [("title", PropertyMapping.mk "summary" .string none)]
        (RepoState.mk [(some (Value.str "1"), [("id", Value.str "1")])]
          [[("id", Value.str "1")]])
        [("title", Value.str "Buy milk")]).state =
      RepoState.mk [(some (Value.str "1"), [("id", Value.str "1")])]
        [[("id", Value.str "1")]]
  ∧ (Repo.remove [("title", PropertyMapping.mk "summary" .string none)]
        (RepoState.mk [(some (Value.str "1"), [("id", Value.str "1")])]
          [[("id", Value.str "1")]])
        [("title", Value.str "Buy milk")]).events = [] :=
  c8_missing_identity [("title", PropertyMapping.mk "summary" .string none)]
    (RepoState.mk [(some (Value.str "1"), [("id", Value.str "1")])]
      [[("id", Value.str "1")]])
    [("title", Value.str "Buy milk")] rfl

/-- C9 witness: the corrected totality theorem at the spec's §8 example
entity shape (required `title` and `done`, optional `id`), with the full
example mapping: the required field `title` has exactly one entry and the
key `id` at most one. -/
theorem c9_entityMapping_total_witness :
    conformsCoreEntityMapping ["title", "done"] ["id"]
        [("id", PropertyMapping.mk "id" .string (some true)),
         ("title", PropertyMapping.mk "summary" .string none),
         ("done", PropertyMapping.mk "status" .boolean none)] = true
      ∧ ([("id", PropertyMapping.mk "id" .string (some true)),
           ("title", PropertyMapping.mk "summary" .string none),
           ("done", PropertyMapping.mk "status" .boolean none)].filter
            fun p => decide (p.1 = "title")).length = 1
      ∧ ([("id", PropertyMapping.mk "id" .string (some true)),
           ("title", PropertyMapping.mk "summary" .string none),
           ("done", PropertyMapping.mk "status" .boolean none)].filter
            fun p => decide (p.1 = "id")).length ≤ 1 := by
  refine ⟨by decide, ?_, ?_⟩
  · exact (c9_entityMapping_total ["title", "done"] ["id"] _ (by decide)).1
      "title" (by decide)
  · exact (c9_entityMapping_total ["title", "done"] ["id"] _ (by decide)).2 "id"

end Grepo
